import Mathlib

/-!
Verification of the chunking engine of `pdf-chuncker`
(src/lib/chunking-strategies.ts), shallowly embedded over `List Char`.

Text is modelled as `List Char`; JS string helpers (`trim`, `slice`,
`split(/\s+/)`, `split(/(?<=[.!?])\s+/)`, `split(/\n\s*\n/)`) are embedded
as executable functions below.  The two genuinely looping algorithms
(the fixed-size `while` loop and the recursive strategy) take an explicit
fuel argument so that every definition is structurally recursive and
kernel-evaluable; the entry points supply fuel that suffices for every
terminating run of the source, and all invariant theorems are proved for
every fuel value.  Wall-clock timing (`processingTime`) is not modelled.
-/

namespace Chunker

/-- JS `\s` whitespace class (the characters relevant to this code base). -/
def isWs (c : Char) : Bool :=
  c = ' ' || c = '\t' || c = '\n' || c = '\r' || c = '\x0c' || c = '\x0b'

/-- JS `String.prototype.trim`. -/
def trim (l : List Char) : List Char :=
  ((l.dropWhile isWs).reverse.dropWhile isWs).reverse

/-- JS `String.prototype.slice(a, b)` for `0 ≤ a ≤ b`. -/
def slice (l : List Char) (a b : Nat) : List Char :=
  (l.drop a).take (b - a)

/-- `currentChunk + (currentChunk ? ' ' : '') + s` -/
def joinSp (a b : List Char) : List Char :=
  if a = [] then b else a ++ ' ' :: b

/-- `currentChunk + (currentChunk ? '\n\n' : '') + s` -/
def joinPara (a b : List Char) : List Char :=
  if a = [] then b else a ++ '\n' :: '\n' :: b

/-- JS `text.split(/\s+/)`: tokens separated by maximal whitespace runs;
a leading or trailing run produces an empty token, as in JS.
The `sep` flag is true while a separator run is being consumed. -/
def splitWsAux : Bool → List Char → List Char → List (List Char)
  | _, [], acc => [acc.reverse]
  | true, c :: rest, acc =>
    if isWs c then splitWsAux true rest acc
    else splitWsAux false rest (c :: acc)
  | false, c :: rest, acc =>
    if isWs c then acc.reverse :: splitWsAux true rest []
    else splitWsAux false rest (c :: acc)

def splitWs (l : List Char) : List (List Char) :=
  splitWsAux false l []

/-- Is the previous character a sentence-ending punctuation mark? -/
def isSentEnd : Option Char → Bool
  | some c => c = '.' || c = '!' || c = '?'
  | none => false

/-- JS `text.split(/(?<=[.!?])\s+/)`: a maximal whitespace run immediately
preceded by `.`/`!`/`?` is a separator.  `acc` holds the current token
reversed; the flag is true while a separator run is being consumed. -/
def sentSplitAux : Bool → List Char → List Char → List (List Char)
  | _, [], acc => [acc.reverse]
  | true, c :: rest, acc =>
    if isWs c then sentSplitAux true rest acc
    else sentSplitAux false rest (c :: acc)
  | false, c :: rest, acc =>
    if isWs c && isSentEnd acc.head? then acc.reverse :: sentSplitAux true rest []
    else sentSplitAux false rest (c :: acc)

def sentSplit (l : List Char) : List (List Char) :=
  sentSplitAux false l []

/-- Number of characters (starting at the character after a `'\n'`) that a
`/\n\s*\n/` separator still consumes: up to and including the last `'\n'`
of the maximal whitespace run. -/
def sepSkip (run : List Char) : Nat :=
  run.length - (run.reverse.takeWhile (fun c => !(c = '\n'))).length

/-- JS `text.split(/\n\s*\n/)`: the separator starting at a `'\n'` extends
(greedily, with the backtracking the regex performs) to the last `'\n'` of
the maximal whitespace run that follows.  `skip` counts separator
characters still to be consumed. -/
def paraSplitAux : List Char → Nat → List Char → List (List Char)
  | [], _, acc => [acc.reverse]
  | _ :: rest, skip + 1, acc => paraSplitAux rest skip acc
  | c :: rest, 0, acc =>
    if c = '\n' && (rest.takeWhile isWs).contains '\n' then
      acc.reverse :: paraSplitAux rest (sepSkip (rest.takeWhile isWs)) []
    else paraSplitAux rest 0 (c :: acc)

def paraSplit (l : List Char) : List (List Char) :=
  paraSplitAux l 0 []

/-- `countWords`: `text.trim().split(/\s+/).filter(w => w.length > 0).length`. -/
def countWords (t : List Char) : Nat :=
  ((splitWs (trim t)).filter (fun w => w.length > 0)).length

/-! ## Data model -/

/-- `ChunkingConfig`.  `strategy` is the runtime string carried by the
TypeScript union type; the five recognized discriminants are listed in
`recognizedStrategies`. -/
structure ChunkingConfig where
  chunkSize : Nat
  overlap : Nat
  strategy : String
  deriving Repr, DecidableEq

def recognizedStrategies : List String :=
  ["fixed", "sentence", "paragraph", "recursive", "semantic"]

/-- `TextChunk`.  `overlap? : Option Nat` models the optional `overlap`
field (`none` = the field is absent, as in the non-fixed strategies). -/
structure TextChunk where
  id : String
  content : List Char
  startIndex : Nat
  endIndex : Nat
  wordCount : Nat
  characterCount : Nat
  overlapWith : Option Nat
  strategy : String
  deriving Repr, DecidableEq

/-- `ChunkingResult` (the `processingTime` stopwatch field is not modelled). -/
structure ChunkingResult where
  chunks : List TextChunk
  totalChunks : Nat
  averageChunkSize : Int
  strategy : String
  deriving Repr, DecidableEq

/-! ## Fixed-size strategy -/

/-- Loop body of `fixedSizeChunking`.  `cur` is `currentIndex`, `cid` is
`chunkId`.  One fuel unit is spent per iteration; `text.length + 1` units
suffice whenever the step `chunkSize - overlap` is positive. -/
def fixedAux (cfg : ChunkingConfig) (text : List Char) :
    Nat → Nat → Nat → List TextChunk
  | 0, _, _ => []
  | fuel + 1, cur, cid =>
    if cur < text.length then
      let endIdx := min (cur + cfg.chunkSize) text.length
      let content := slice text cur endIdx
      if (trim content).length = 0 then
        fixedAux cfg text fuel endIdx cid
      else
        { id := "fixed-" ++ toString cid
          content := trim content
          startIndex := cur
          endIndex := endIdx
          wordCount := countWords content
          characterCount := content.length
          overlapWith := some (if cid + 1 > 1 then min cfg.overlap content.length else 0)
          strategy := "fixed" } ::
        fixedAux cfg text fuel (cur + (cfg.chunkSize - cfg.overlap)) (cid + 1)
    else []

def fixedSizeChunking (text : List Char) (cfg : ChunkingConfig) : List TextChunk :=
  fixedAux cfg text (text.length + 1) 0 0

/-! ## Sentence-based strategy -/

/-- A chunk as pushed by the accumulating strategies: `span` is the
`currentChunk` buffer, `cur` its `currentIndex`, `cid` the chunk id. -/
def mkAccChunk (strat : String) (span : List Char) (cur cid : Nat) : TextChunk :=
  { id := strat ++ "-" ++ toString cid
    content := trim span
    startIndex := cur
    endIndex := cur + span.length
    wordCount := countWords span
    characterCount := span.length
    overlapWith := none
    strategy := strat }

/-- Loop of `sentenceBasedChunking` over the (pre-filtered) sentence list.
`cc` is `currentChunk`, `cur` is `currentIndex`. -/
def sbcLoop (cfg : ChunkingConfig) :
    List (List Char) → List Char → Nat → Nat → List TextChunk
  | [], cc, cur, cid =>
    if (trim cc).length ≠ 0 then [mkAccChunk "sentence" cc cur cid] else []
  | s :: rest, cc, cur, cid =>
    let ts := trim s
    if ts = [] then sbcLoop cfg rest cc cur cid
    else
      let pot := joinSp cc ts
      if pot.length > cfg.chunkSize ∧ cc ≠ [] then
        mkAccChunk "sentence" cc cur cid ::
          sbcLoop cfg rest ts (cur + cc.length) (cid + 1)
      else sbcLoop cfg rest pot cur cid

def sentenceBasedChunking (text : List Char) (cfg : ChunkingConfig) : List TextChunk :=
  sbcLoop cfg ((sentSplit text).filter (fun s => (trim s).length > 0)) [] 0 0

/-! ## Paragraph-based strategy -/

def pbcLoop (cfg : ChunkingConfig) :
    List (List Char) → List Char → Nat → Nat → List TextChunk
  | [], cc, cur, cid =>
    if (trim cc).length ≠ 0 then [mkAccChunk "paragraph" cc cur cid] else []
  | p :: rest, cc, cur, cid =>
    let tp := trim p
    if tp = [] then pbcLoop cfg rest cc cur cid
    else
      let pot := joinPara cc tp
      if pot.length > cfg.chunkSize ∧ cc ≠ [] then
        mkAccChunk "paragraph" cc cur cid ::
          pbcLoop cfg rest tp (cur + cc.length) (cid + 1)
      else pbcLoop cfg rest pot cur cid

def paragraphBasedChunking (text : List Char) (cfg : ChunkingConfig) : List TextChunk :=
  pbcLoop cfg ((paraSplit text).filter (fun p => (trim p).length > 0)) [] 0 0

/-! ## Semantic strategy helpers -/

/-- The stop-word set of `extractKeywords`. -/
def stopWords : List (List Char) :=
  (["the", "a", "an", "and", "or", "but", "in", "on", "at", "to", "for", "of",
    "with", "by", "is", "are", "was", "were", "be", "been", "have", "has",
    "had", "do", "does", "did", "will", "would", "could", "should", "may",
    "might", "can", "this", "that", "these", "those", "i", "you", "he",
    "she", "it", "we", "they"].map String.toList)

/-- JS `\w` word-character class. -/
def isWordChar (c : Char) : Bool :=
  c.isAlphanum || c = '_'

/-- `extractKeywords`: lowercase, replace `[^\w\s]` by spaces, split on
whitespace, keep tokens of length `> 2` that are not stop words, take the
first 20, and form a set (modelled as the deduplicated token list; only
membership and cardinality of the set are ever used). -/
def extractKeywords (t : List Char) : List (List Char) :=
  ((((splitWs ((t.map Char.toLower).map
        (fun c => if isWordChar c || isWs c then c else ' '))).filter
      (fun w => w.length > 2 && !(stopWords.contains w))).take 20)).dedup

/-- `calculateSimilarity`: Jaccard overlap of two keyword sets (arguments
are deduplicated lists standing for JS `Set`s, in insertion order). -/
def calculateSimilarity (s1 s2 : List (List Char)) : ℚ :=
  if s1.dedup.length = 0 ∨ s2.dedup.length = 0 then 0
  else ((s1.dedup.filter (fun w => s2.contains w)).length : ℚ) /
       (((s1 ++ s2).dedup.length : ℚ))

/-- The discourse markers of `detectTopicTransition` (all patterns are
case-insensitive prefix tests on the trimmed next sentence). -/
def transitionMarkers : List (List Char) :=
  (["however", "moreover", "furthermore", "additionally", "meanwhile",
    "subsequently", "consequently", "therefore", "thus", "hence",
    "in contrast", "on the other hand", "alternatively", "conversely",
    "first", "second", "third", "finally", "lastly", "in conclusion",
    "chapter", "section"].map String.toList)

/-- `^\d+\.` -/
def digitsDot (t : List Char) : Bool :=
  let ds := t.takeWhile Char.isDigit
  !(ds = []) && (t.drop ds.length).head? = some '.'

/-- `detectTopicTransition(currentText, nextSentence)`; `currentText` is
unused in the source as well. -/
def detectTopicTransition (currentText nextSentence : List Char) : Bool :=
  let t := (trim nextSentence).map Char.toLower
  (transitionMarkers.any (fun m => m.isPrefixOf t)) || digitsDot t

/-- `shouldSplitSemantically`. -/
def shouldSplitSemantically (currentChunk nextSentence : List Char)
    (totalLength maxSize : Nat) (followingSentence : List Char) : Bool :=
  if totalLength > maxSize then true
  else if (currentChunk.length : ℚ) < (maxSize : ℚ) * (3 / 10) then false
  else
    let currentWords := extractKeywords currentChunk
    let nextWords := extractKeywords nextSentence
    let followingWords := if followingSentence ≠ [] then extractKeywords followingSentence else []
    let similarity := calculateSimilarity currentWords nextWords
    let contextualSimilarity :=
      if followingSentence ≠ [] then calculateSimilarity nextWords followingWords else 0
    let hasTopicTransition := detectTopicTransition currentChunk nextSentence
    decide ((similarity < 2 / 10 ∧ (totalLength : ℚ) > (maxSize : ℚ) * (6 / 10)) ∨
      (hasTopicTransition = true ∧ (totalLength : ℚ) > (maxSize : ℚ) * (4 / 10)) ∨
      (contextualSimilarity > similarity * (3 / 2) ∧
        (totalLength : ℚ) > (maxSize : ℚ) * (5 / 10)))

/-- `i < sentences.length - 1 ? sentences[i + 1] : ''` -/
def lookahead : List (List Char) → List Char
  | [] => []
  | t :: _ => t

/-- Loop of `semanticChunking`: greedy accumulation whose flush decision is
`shouldSplitSemantically`; the following sentence is the next raw element
of the (pre-filtered) sentence list, `''` at the end. -/
def semLoop (cfg : ChunkingConfig) :
    List (List Char) → List Char → Nat → Nat → List TextChunk
  | [], cc, cur, cid =>
    if (trim cc).length ≠ 0 then [mkAccChunk "semantic" cc cur cid] else []
  | s :: rest, cc, cur, cid =>
    let ts := trim s
    if ts = [] then semLoop cfg rest cc cur cid
    else
      let pot := joinSp cc ts
      if shouldSplitSemantically cc ts pot.length cfg.chunkSize (lookahead rest) ∧
          (trim cc).length ≠ 0 then
        mkAccChunk "semantic" cc cur cid ::
          semLoop cfg rest ts (cur + cc.length) (cid + 1)
      else semLoop cfg rest pot cur cid

def semanticChunking (text : List Char) (cfg : ChunkingConfig) : List TextChunk :=
  semLoop cfg ((sentSplit text).filter (fun s => (trim s).length > 0)) [] 0 0

/-! ## Recursive strategy -/

/-- A chunk as pushed by `recursiveChunking`. -/
def mkRecChunk (span : List Char) (cur cid : Nat) : TextChunk :=
  { id := "recursive-" ++ toString cid
    content := trim span
    startIndex := cur
    endIndex := cur + span.length
    wordCount := countWords span
    characterCount := span.length
    overlapWith := none
    strategy := "recursive" }

/-- The word-level fallback of `recursiveChunking` (greedy accumulation of
whitespace-delimited words, flushed at `chunkSize`; oversized single words
are accepted whole).  Returns the emitted chunks and the next chunk id. -/
def wordLoop (cfg : ChunkingConfig) :
    List (List Char) → List Char → Nat → Nat → List TextChunk × Nat
  | [], cc, cur, cid =>
    if (trim cc).length ≠ 0 then ([mkRecChunk cc cur cid], cid + 1) else ([], cid)
  | w :: rest, cc, cur, cid =>
    if (joinSp cc w).length > cfg.chunkSize ∧ cc ≠ [] then
      let r := wordLoop cfg rest w (cur + cc.length + 1) (cid + 1)
      (mkRecChunk cc cur cid :: r.1, r.2)
    else wordLoop cfg rest (joinSp cc w) cur cid

/-- The mutually recursive work of `recursiveChunking`, defused into one
fuel-indexed dispatcher so that it is structurally recursive on the fuel.
`RecTask.chunk t s` is a call `recursiveChunk(t, s)`; `RecTask.paras` and
`RecTask.sents` are its in-progress paragraph and sentence loops. -/
inductive RecTask where
  | chunk (text : List Char) (start : Nat)
  | paras (ps : List (List Char)) (cur : Nat)
  | sents (ss : List (List Char)) (cc : List Char) (cur : Nat)

def recGo (cfg : ChunkingConfig) : Nat → RecTask → Nat → List TextChunk × Nat
  | 0, _, cid => ([], cid)
  | fuel + 1, .chunk text start, cid =>
    if (trim text).length = 0 then ([], cid)
    else if text.length ≤ cfg.chunkSize then
      ([mkRecChunk text start cid], cid + 1)
    else if ((paraSplit text).filter (fun p => (trim p).length > 0)).length > 1 then
      recGo cfg fuel (.paras ((paraSplit text).filter (fun p => (trim p).length > 0)) start) cid
    else if ((sentSplit text).filter (fun s => (trim s).length > 0)).length > 1 then
      recGo cfg fuel (.sents ((sentSplit text).filter (fun s => (trim s).length > 0)) [] start) cid
    else
      wordLoop cfg ((splitWs text).filter (fun w => (trim w).length > 0)) [] start cid
  | _ + 1, .paras [] _, cid => ([], cid)
  | fuel + 1, .paras (p :: rest) cur, cid =>
    if (trim p).length > 0 then
      let r1 := recGo cfg fuel (.chunk (trim p) cur) cid
      let r2 := recGo cfg fuel (.paras rest (cur + p.length + 2)) r1.2
      (r1.1 ++ r2.1, r2.2)
    else recGo cfg fuel (.paras rest cur) cid
  | fuel + 1, .sents [] cc cur, cid =>
    if (trim cc).length ≠ 0 then recGo cfg fuel (.chunk cc cur) cid else ([], cid)
  | fuel + 1, .sents (s :: rest) cc cur, cid =>
    if trim s = [] then recGo cfg fuel (.sents rest cc cur) cid
    else
      if (joinSp cc (trim s)).length > cfg.chunkSize ∧ cc ≠ [] then
        let r1 := recGo cfg fuel (.chunk cc cur) cid
        let r2 := recGo cfg fuel (.sents rest (trim s) (cur + cc.length)) r1.2
        (r1.1 ++ r2.1, r2.2)
      else recGo cfg fuel (.sents rest (joinSp cc (trim s)) cur) cid

/-- Fuel that amply covers every terminating run of the source recursion on
`text` (each level of the tree strictly shrinks its span). -/
def recFuel (text : List Char) : Nat :=
  2 * text.length * text.length + 2 * text.length + 8

def recursiveChunking (text : List Char) (cfg : ChunkingConfig) : List TextChunk :=
  (recGo cfg (recFuel text) (.chunk text 0) 0).1

/-! ## Entry point -/

/-- JS `Math.round` on a nonnegative rational. -/
def jsRound (q : ℚ) : Int := ⌊q + 1 / 2⌋

/-- The `switch (config.strategy)` dispatch, including the
`default: throw new Error(...)` arm. -/
def runStrategy (text : List Char) (cfg : ChunkingConfig) :
    Except String (List TextChunk) :=
  if cfg.strategy = "fixed" then .ok (fixedSizeChunking text cfg)
  else if cfg.strategy = "sentence" then .ok (sentenceBasedChunking text cfg)
  else if cfg.strategy = "paragraph" then .ok (paragraphBasedChunking text cfg)
  else if cfg.strategy = "recursive" then .ok (recursiveChunking text cfg)
  else if cfg.strategy = "semantic" then .ok (semanticChunking text cfg)
  else .error ("Unknown chunking strategy: " ++ cfg.strategy)

/-- `ChunkingStrategies.chunkText`: the empty-input early return, the
strategy dispatch (re-throwing strategy errors with a `Chunking failed: `
prefix), and the aggregate statistics. -/
def chunkText (text : List Char) (cfg : ChunkingConfig) :
    Except String ChunkingResult :=
  if (trim text).length = 0 then
    .ok { chunks := [], totalChunks := 0, averageChunkSize := 0, strategy := cfg.strategy }
  else
    match runStrategy text cfg with
    | .error e => .error ("Chunking failed: " ++ e)
    | .ok chunks =>
      .ok { chunks := chunks
            totalChunks := chunks.length
            averageChunkSize :=
              if chunks.length > 0 then
                jsRound (((chunks.map (fun c => (c.characterCount : ℚ))).sum) / (chunks.length : ℚ))
              else 0
            strategy := cfg.strategy }

/-! ## Basic lemmas about `trim` -/

theorem dropWhile_head?_not (p : Char → Bool) :
    ∀ l : List Char, ∀ c, (List.dropWhile p l).head? = some c → p c = false := by
  intro l
  induction l with
  | nil => intro c h; simp [List.dropWhile] at h
  | cons a t ih =>
    intro c h
    rw [List.dropWhile_cons] at h
    by_cases hp : p a
    · simp [hp] at h; exact ih c h
    · simp [hp] at h
      rw [← h]
      simpa using hp

theorem dropWhile_eq_self_of (p : Char → Bool) (l : List Char)
    (h : ∀ c, l.head? = some c → p c = false) : l.dropWhile p = l := by
  cases l with
  | nil => rfl
  | cons a t =>
    rw [List.dropWhile_cons]
    simp [h a rfl]

theorem getLast?_cons_of_ne (a : Char) (t : List Char) (h : t ≠ []) :
    (a :: t).getLast? = t.getLast? := by
  cases t with
  | nil => exact absurd rfl h
  | cons b u => simp [List.getLast?_cons_cons]

theorem getLast?_dropWhile (p : Char → Bool) :
    ∀ l : List Char, l.dropWhile p ≠ [] → (l.dropWhile p).getLast? = l.getLast? := by
  intro l
  induction l with
  | nil => intro h; simp [List.dropWhile] at h
  | cons a t ih =>
    intro h
    rw [List.dropWhile_cons] at h ⊢
    by_cases hp : p a
    · rw [if_pos hp] at h ⊢
      have ht : t ≠ [] := by
        intro he; rw [he] at h; simp [List.dropWhile] at h
      rw [ih h, getLast?_cons_of_ne a t ht]
    · rw [if_neg hp]

theorem trim_head?_not (l : List Char) (c : Char) :
    (trim l).head? = some c → isWs c = false := by
  intro h
  unfold trim at h
  rw [List.head?_reverse] at h
  have hne : ((l.dropWhile isWs).reverse.dropWhile isWs) ≠ [] := by
    intro he; rw [he] at h; simp at h
  rw [getLast?_dropWhile isWs _ hne, List.getLast?_reverse] at h
  exact dropWhile_head?_not isWs l c h

theorem trim_getLast?_not (l : List Char) (c : Char) :
    (trim l).getLast? = some c → isWs c = false := by
  intro h
  unfold trim at h
  rw [List.getLast?_reverse] at h
  exact dropWhile_head?_not isWs _ c h

theorem trim_eq_self (l : List Char)
    (h1 : ∀ c, l.head? = some c → isWs c = false)
    (h2 : ∀ c, l.getLast? = some c → isWs c = false) : trim l = l := by
  unfold trim
  rw [dropWhile_eq_self_of isWs l h1]
  rw [dropWhile_eq_self_of isWs l.reverse (fun c hc => h2 c (by rwa [List.head?_reverse] at hc))]
  exact List.reverse_reverse l

theorem trim_trim (l : List Char) : trim (trim l) = trim l :=
  trim_eq_self (trim l) (trim_head?_not l) (trim_getLast?_not l)

theorem length_trim_le (l : List Char) : (trim l).length ≤ l.length := by
  unfold trim
  calc ((l.dropWhile isWs).reverse.dropWhile isWs).reverse.length
      = ((l.dropWhile isWs).reverse.dropWhile isWs).length := List.length_reverse _
    _ ≤ (l.dropWhile isWs).reverse.length := (List.dropWhile_sublist isWs).length_le
    _ = (l.dropWhile isWs).length := List.length_reverse _
    _ ≤ l.length := (List.dropWhile_sublist isWs).length_le

theorem countWords_trim (t : List Char) : countWords (trim t) = countWords t := by
  unfold countWords
  rw [trim_trim]

/-! ## Lemmas about the tokenizers -/

/-- Total character count of a token list. -/
def sumLen (ls : List (List Char)) : Nat := (ls.map List.length).sum

theorem sumLen_nil : sumLen [] = 0 := rfl

theorem sumLen_cons (t : List Char) (ls : List (List Char)) :
    sumLen (t :: ls) = t.length + sumLen ls := by
  simp [sumLen]

theorem sumLen_filter_le (p : List Char → Bool) (ls : List (List Char)) :
    sumLen (ls.filter p) ≤ sumLen ls := by
  induction ls with
  | nil => simp
  | cons t rest ih =>
    rw [List.filter_cons]
    by_cases hp : p t
    · simp only [hp, if_true, sumLen_cons]
      omega
    · simp only [hp, Bool.false_eq_true, if_false, sumLen_cons]
      omega

theorem sumLen_map_trim_le (ls : List (List Char)) :
    sumLen (ls.map trim) ≤ sumLen ls := by
  induction ls with
  | nil => simp
  | cons t rest ih =>
    simp only [List.map_cons, sumLen_cons]
    have := length_trim_le t
    omega

/-- Every character of every `splitWs` token is non-whitespace. -/
theorem splitWsAux_tokens : ∀ (l : List Char) (sep : Bool) (acc : List Char),
    (∀ c ∈ acc, isWs c = false) →
    ∀ t ∈ splitWsAux sep l acc, ∀ c ∈ t, isWs c = false := by
  intro l
  induction l with
  | nil =>
    intro sep acc hacc t ht c hc
    simp only [splitWsAux, List.mem_singleton] at ht
    subst ht
    exact hacc c (List.mem_reverse.mp hc)
  | cons a rest ih =>
    intro sep acc hacc t ht c hc
    have haccx : ∀ d ∈ a :: acc, isWs a = false → isWs d = false := by
      intro d hd hw
      rcases List.mem_cons.mp hd with h1 | h2
      · subst h1; exact hw
      · exact hacc d h2
    cases sep with
    | true =>
      rw [splitWsAux] at ht
      by_cases hw : isWs a
      · rw [if_pos hw] at ht
        exact ih true acc hacc t ht c hc
      · rw [if_neg hw] at ht
        exact ih false (a :: acc) (fun d hd => haccx d hd (by simpa using hw)) t ht c hc
    | false =>
      rw [splitWsAux] at ht
      by_cases hw : isWs a
      · rw [if_pos hw] at ht
        rcases List.mem_cons.mp ht with h1 | h2
        · subst h1; exact hacc c (List.mem_reverse.mp hc)
        · exact ih true [] (by simp) t h2 c hc
      · rw [if_neg hw] at ht
        exact ih false (a :: acc) (fun d hd => haccx d hd (by simpa using hw)) t ht c hc

/-- On all-non-whitespace input, `splitWs` never splits. -/
theorem splitWsAux_all_nonws : ∀ (l : List Char) (acc : List Char),
    (∀ c ∈ l, isWs c = false) →
    splitWsAux false l acc = [acc.reverse ++ l] := by
  intro l
  induction l with
  | nil => intro acc _; simp [splitWsAux]
  | cons a rest ih =>
    intro acc h
    have ha : isWs a = false := h a (List.mem_cons_self a rest)
    rw [splitWsAux, if_neg (by simp [ha])]
    rw [ih (a :: acc) (fun c hc => h c (List.mem_cons_of_mem a hc))]
    simp

/-- Token mass bound for `splitWs`: total token length plus the number of
separators consumed is bounded by the input length. -/
theorem splitWsAux_bound : ∀ (l : List Char) (sep : Bool) (acc : List Char),
    sumLen (splitWsAux sep l acc) + (splitWsAux sep l acc).length ≤
      l.length + acc.length + 1 := by
  intro l
  induction l with
  | nil =>
    intro sep acc
    simp [splitWsAux, sumLen]
  | cons a rest ih =>
    intro sep acc
    cases sep with
    | true =>
      rw [splitWsAux]
      by_cases hw : isWs a
      · rw [if_pos hw]
        have := ih true acc
        simp only [List.length_cons]
        omega
      · rw [if_neg hw]
        have := ih false (a :: acc)
        simp only [List.length_cons] at this ⊢
        omega
    | false =>
      rw [splitWsAux]
      by_cases hw : isWs a
      · rw [if_pos hw]
        have h2 := ih true []
        simp only [sumLen_cons, List.length_cons, List.length_reverse]
        simp only [List.length_nil] at h2
        omega
      · rw [if_neg hw]
        have := ih false (a :: acc)
        simp only [List.length_cons] at this ⊢
        omega

theorem splitWs_bound (l : List Char) :
    sumLen (splitWs l) + (splitWs l).length ≤ l.length + 1 := by
  have := splitWsAux_bound l false []
  simpa [splitWs] using this

theorem splitWs_tokens (l : List Char) :
    ∀ t ∈ splitWs l, ∀ c ∈ t, isWs c = false :=
  splitWsAux_tokens l false [] (by simp)

/-- Token mass bound for the sentence splitter. -/
theorem sentSplitAux_bound : ∀ (l : List Char) (sep : Bool) (acc : List Char),
    sumLen (sentSplitAux sep l acc) + (sentSplitAux sep l acc).length ≤
      l.length + acc.length + 1 := by
  intro l
  induction l with
  | nil =>
    intro sep acc
    cases sep <;> simp [sentSplitAux, sumLen]
  | cons a rest ih =>
    intro sep acc
    cases sep with
    | true =>
      rw [sentSplitAux]
      by_cases hw : isWs a
      · rw [if_pos hw]
        have := ih true acc
        simp only [List.length_cons]
        omega
      · rw [if_neg hw]
        have := ih false (a :: acc)
        simp only [List.length_cons] at this ⊢
        omega
    | false =>
      rw [sentSplitAux]
      by_cases hb : isWs a && isSentEnd acc.head?
      · rw [if_pos hb]
        have h2 := ih true []
        simp only [sumLen_cons, List.length_cons, List.length_reverse]
        simp only [List.length_nil] at h2
        omega
      · rw [if_neg hb]
        have := ih false (a :: acc)
        simp only [List.length_cons] at this ⊢
        omega

theorem sentSplit_bound (l : List Char) :
    sumLen (sentSplit l) + (sentSplit l).length ≤ l.length + 1 := by
  have := sentSplitAux_bound l false []
  simpa [sentSplit] using this

theorem takeWhile_length_lt_of_mem (a : Char) :
    ∀ l : List Char, a ∈ l → (l.takeWhile (fun c => !(c = a))).length < l.length := by
  intro l
  induction l with
  | nil => intro h; simp at h
  | cons b t ih =>
    intro h
    rw [List.takeWhile_cons]
    by_cases hb : b = a
    · simp [hb]
    · rw [if_pos (by simp [hb])]
      have ht : a ∈ t := by
        rcases List.mem_cons.mp h with h1 | h2
        · exact absurd h1.symm hb
        · exact h2
      simpa using ih ht

theorem sepSkip_le (run : List Char) : sepSkip run ≤ run.length :=
  Nat.sub_le _ _

theorem sepSkip_pos (run : List Char) (h : run.contains '\n') : 1 ≤ sepSkip run := by
  unfold sepSkip
  have hm : '\n' ∈ run.reverse := by
    rw [List.mem_reverse]
    exact List.mem_of_elem_eq_true h
  have := takeWhile_length_lt_of_mem '\n' run.reverse hm
  rw [List.length_reverse] at this
  omega

/-- Token mass bound for the paragraph splitter: each separator consumes at
least two characters. -/
theorem paraSplitAux_bound : ∀ (l : List Char) (skip : Nat) (acc : List Char),
    skip ≤ l.length →
    sumLen (paraSplitAux l skip acc) + 2 * (paraSplitAux l skip acc).length + skip ≤
      l.length + acc.length + 2 := by
  intro l
  induction l with
  | nil =>
    intro skip acc hs
    simp only [List.length_nil, Nat.le_zero] at hs
    subst hs
    simp [paraSplitAux, sumLen]
  | cons a rest ih =>
    intro skip acc hs
    match skip with
    | Nat.succ s =>
      show sumLen (paraSplitAux rest s acc) + 2 * (paraSplitAux rest s acc).length +
        (s + 1) ≤ (a :: rest).length + acc.length + 2
      have := ih s acc (by simp at hs; omega)
      simp only [List.length_cons]
      omega
    | 0 =>
      rw [paraSplitAux]
      by_cases hsep : a = '\n' && (rest.takeWhile isWs).contains '\n'
      · rw [if_pos hsep]
        have hrun : (rest.takeWhile isWs).contains '\n' := by
          simp only [Bool.and_eq_true] at hsep
          exact hsep.2
        have hskip : sepSkip (rest.takeWhile isWs) ≤ rest.length :=
          Nat.le_trans (sepSkip_le _) (List.takeWhile_sublist isWs).length_le
        have h2 := ih (sepSkip (rest.takeWhile isWs)) [] hskip
        have h1 := sepSkip_pos _ hrun
        simp only [sumLen_cons, List.length_cons, List.length_reverse]
        simp only [List.length_nil] at h2
        omega
      · rw [if_neg hsep]
        have := ih 0 (a :: acc) (Nat.zero_le _)
        simp only [List.length_cons] at this ⊢
        omega

theorem paraSplit_bound (l : List Char) :
    sumLen (paraSplit l) + 2 * (paraSplit l).length ≤ l.length + 2 := by
  have := paraSplitAux_bound l 0 [] (Nat.zero_le _)
  simpa [paraSplit] using this

/-! ## Lemmas about `slice`, the joins and `countWords` -/

theorem length_slice (l : List Char) (a b : Nat) (hab : a ≤ b) (hb : b ≤ l.length) :
    (slice l a b).length = b - a := by
  simp only [slice, List.length_take, List.length_drop]
  omega

theorem head?_mem_of (l : List Char) (c : Char) (h : l.head? = some c) : c ∈ l := by
  cases l with
  | nil => simp at h
  | cons a t =>
    simp only [List.head?_cons, Option.some.injEq] at h
    subst h
    exact List.mem_cons_self _ _

theorem getLast?_mem_of (l : List Char) (c : Char) (h : l.getLast? = some c) : c ∈ l := by
  have h2 : l.reverse.head? = some c := by rw [List.head?_reverse, h]
  exact List.mem_reverse.mp (head?_mem_of l.reverse c h2)

theorem trim_eq_self_of_all (l : List Char) (h : ∀ c ∈ l, isWs c = false) :
    trim l = l :=
  trim_eq_self l (fun c hc => h c (head?_mem_of l c hc))
    (fun c hc => h c (getLast?_mem_of l c hc))

theorem countWords_single (l : List Char) (h : ∀ c ∈ l, isWs c = false)
    (hne : l ≠ []) : countWords l = 1 := by
  unfold countWords
  rw [trim_eq_self_of_all l h]
  rw [show splitWs l = [l] from splitWsAux_all_nonws l [] h]
  have : l.length > 0 := List.length_pos.mpr hne
  simp [List.filter_cons, this]

theorem joinSp_ne_nil (a b : List Char) (hb : b ≠ []) : joinSp a b ≠ [] := by
  unfold joinSp
  by_cases ha : a = []
  · simpa [ha]
  · simp [ha]

theorem joinSp_length (a b : List Char) (ha : a ≠ []) :
    (joinSp a b).length = a.length + 1 + b.length := by
  simp [joinSp, ha]
  omega

theorem head?_append_left (a b : List Char) (ha : a ≠ []) :
    (a ++ b).head? = a.head? := by
  cases a with
  | nil => exact absurd rfl ha
  | cons x t => simp

theorem getLast?_append_right (a b : List Char) (hb : b ≠ []) :
    (a ++ b).getLast? = b.getLast? := by
  induction a with
  | nil => simp
  | cons x t ih =>
    rw [List.cons_append]
    rw [getLast?_cons_of_ne x (t ++ b) (by simp [hb]), ih]

theorem trim_joinSp (a b : List Char) (ha : trim a = a) (hb : trim b = b)
    (hbne : b ≠ []) : trim (joinSp a b) = joinSp a b := by
  unfold joinSp
  by_cases hae : a = []
  · simpa [hae]
  · rw [if_neg hae]
    refine trim_eq_self _ ?_ ?_
    · intro c hc
      rw [head?_append_left a (' ' :: b) hae] at hc
      refine trim_head?_not a c ?_
      rwa [ha]
    · intro c hc
      rw [getLast?_append_right a (' ' :: b) (by simp)] at hc
      rw [getLast?_cons_of_ne ' ' b hbne] at hc
      refine trim_getLast?_not b c ?_
      rwa [hb]

theorem trim_joinPara (a b : List Char) (ha : trim a = a) (hb : trim b = b)
    (hbne : b ≠ []) : trim (joinPara a b) = joinPara a b := by
  unfold joinPara
  by_cases hae : a = []
  · simpa [hae]
  · rw [if_neg hae]
    refine trim_eq_self _ ?_ ?_
    · intro c hc
      rw [head?_append_left a ('\n' :: '\n' :: b) hae] at hc
      refine trim_head?_not a c ?_
      rwa [ha]
    · intro c hc
      rw [getLast?_append_right a ('\n' :: '\n' :: b) (by simp)] at hc
      rw [getLast?_cons_of_ne '\n' ('\n' :: b) (by simp)] at hc
      rw [getLast?_cons_of_ne '\n' b hbne] at hc
      refine trim_getLast?_not b c ?_
      rwa [hb]

theorem joinPara_ne_nil (a b : List Char) (hb : b ≠ []) : joinPara a b ≠ [] := by
  unfold joinPara
  by_cases ha : a = []
  · simpa [ha]
  · simp [ha]

/-! ## Shape of every emitted chunk -/

/-- Every chunk any strategy pushes is built from an untrimmed source span:
its `content` is the span trimmed (and non-empty), `characterCount` is the
*untrimmed* span length, `wordCount` is the span's whitespace token count,
and `endIndex` is `startIndex` plus the untrimmed span length. -/
def ChunkMeta (c : TextChunk) : Prop :=
  ∃ span : List Char, c.content = trim span ∧ c.content ≠ [] ∧
    c.characterCount = span.length ∧ c.wordCount = countWords span ∧
    c.endIndex = c.startIndex + span.length

theorem ChunkMeta.words {c : TextChunk} (h : ChunkMeta c) :
    c.wordCount = countWords c.content := by
  obtain ⟨span, h1, _, _, h4, _⟩ := h
  rw [h4, h1, countWords_trim]

theorem ChunkMeta.trim_content {c : TextChunk} (h : ChunkMeta c) :
    trim c.content = c.content := by
  obtain ⟨span, h1, _, _, _, _⟩ := h
  rw [h1, trim_trim]

theorem ChunkMeta.content_ne {c : TextChunk} (h : ChunkMeta c) : c.content ≠ [] := by
  obtain ⟨span, _, h2, _, _, _⟩ := h
  exact h2

theorem ChunkMeta.end_eq {c : TextChunk} (h : ChunkMeta c) :
    c.endIndex = c.startIndex + c.characterCount := by
  obtain ⟨span, _, _, h3, _, h5⟩ := h
  omega

theorem ChunkMeta.start_le_end {c : TextChunk} (h : ChunkMeta c) :
    c.startIndex ≤ c.endIndex := by
  obtain ⟨span, _, _, _, _, h5⟩ := h
  omega

theorem ChunkMeta.content_le_char {c : TextChunk} (h : ChunkMeta c) :
    c.content.length ≤ c.characterCount := by
  obtain ⟨span, h1, _, h3, _, _⟩ := h
  rw [h1, h3]
  exact length_trim_le span

theorem mkAccChunk_meta (strat : String) (span : List Char) (cur cid : Nat)
    (h : trim span ≠ []) : ChunkMeta (mkAccChunk strat span cur cid) :=
  ⟨span, rfl, h, rfl, rfl, rfl⟩

theorem mkRecChunk_meta (span : List Char) (cur cid : Nat)
    (h : trim span ≠ []) : ChunkMeta (mkRecChunk span cur cid) :=
  ⟨span, rfl, h, rfl, rfl, rfl⟩

/-- Document order: `startIndex` is non-decreasing. -/
def chunkLE (a b : TextChunk) : Prop := a.startIndex ≤ b.startIndex

/-! ## Fixed-size strategy: invariants -/

theorem fixedAux_meta (cfg : ChunkingConfig) (text : List Char) :
    ∀ fuel cur cid,
      (∀ c ∈ fixedAux cfg text fuel cur cid,
        ChunkMeta c ∧ cur ≤ c.startIndex ∧ c.strategy = "fixed") ∧
      List.Pairwise chunkLE (fixedAux cfg text fuel cur cid) := by
  intro fuel
  induction fuel with
  | zero => intro cur cid; simp [fixedAux]
  | succ fuel ih =>
    intro cur cid
    rw [fixedAux]
    by_cases hc : cur < text.length
    · rw [if_pos hc]
      by_cases ht : (trim (slice text cur (min (cur + cfg.chunkSize) text.length))).length = 0
      · simp only [ht, if_pos]
        have hlow : cur ≤ min (cur + cfg.chunkSize) text.length :=
          le_min (Nat.le_add_right _ _) (le_of_lt hc)
        obtain ⟨h1, h2⟩ := ih (min (cur + cfg.chunkSize) text.length) cid
        exact ⟨fun c hcc => ⟨(h1 c hcc).1, le_trans hlow (h1 c hcc).2.1, (h1 c hcc).2.2⟩, h2⟩
      · rw [if_neg ht]
        have hmeta : ChunkMeta
            { id := "fixed-" ++ toString cid
              content := trim (slice text cur (min (cur + cfg.chunkSize) text.length))
              startIndex := cur
              endIndex := min (cur + cfg.chunkSize) text.length
              wordCount := countWords (slice text cur (min (cur + cfg.chunkSize) text.length))
              characterCount := (slice text cur (min (cur + cfg.chunkSize) text.length)).length
              overlapWith := some (if cid + 1 > 1 then
                min cfg.overlap (slice text cur (min (cur + cfg.chunkSize) text.length)).length else 0)
              strategy := "fixed" } := by
          refine ⟨slice text cur (min (cur + cfg.chunkSize) text.length), rfl, ?_, rfl, rfl, ?_⟩
          · intro he
            apply ht
            have h0 : trim (slice text cur (min (cur + cfg.chunkSize) text.length)) = [] := he
            rw [h0]
            rfl
          · show min (cur + cfg.chunkSize) text.length =
              cur + (slice text cur (min (cur + cfg.chunkSize) text.length)).length
            rw [length_slice text cur (min (cur + cfg.chunkSize) text.length)
              (le_min (Nat.le_add_right _ _) (le_of_lt hc)) (min_le_right _ _)]
            have := le_min (Nat.le_add_right cur cfg.chunkSize) (le_of_lt hc)
            omega
        obtain ⟨h1, h2⟩ := ih (cur + (cfg.chunkSize - cfg.overlap)) (cid + 1)
        constructor
        · intro c hcc
          rcases List.mem_cons.mp hcc with h | h
          · subst h
            exact ⟨hmeta, le_refl _, rfl⟩
          · exact ⟨(h1 c h).1, le_trans (Nat.le_add_right _ _) (h1 c h).2.1, (h1 c h).2.2⟩
        · refine List.Pairwise.cons ?_ h2
          intro b hb
          show cur ≤ b.startIndex
          exact le_trans (Nat.le_add_right _ _) (h1 b hb).2.1
    · rw [if_neg hc]
      simp

/-- The overlap field as actually recorded by the fixed-size strategy. -/
def OverlapRec (ov : Nat) : List TextChunk → Prop
  | [] => True
  | c :: rest =>
    c.overlapWith = some 0 ∧
      ∀ c' ∈ rest, c'.overlapWith = some (min ov c'.characterCount)

theorem fixedAux_overlap_pos (cfg : ChunkingConfig) (text : List Char) :
    ∀ fuel cur cid, 1 ≤ cid →
      ∀ c ∈ fixedAux cfg text fuel cur cid,
        c.overlapWith = some (min cfg.overlap c.characterCount) := by
  intro fuel
  induction fuel with
  | zero => intro cur cid _ c hc; simp [fixedAux] at hc
  | succ fuel ih =>
    intro cur cid hcid c hc
    rw [fixedAux] at hc
    by_cases hlt : cur < text.length
    · rw [if_pos hlt] at hc
      by_cases ht : (trim (slice text cur (min (cur + cfg.chunkSize) text.length))).length = 0
      · simp only [ht, if_pos] at hc
        exact ih _ cid hcid c hc
      · rw [if_neg ht] at hc
        rcases List.mem_cons.mp hc with h | h
        · subst h
          simp only [TextChunk.mk.injEq]
          rw [if_pos (by omega)]
        · exact ih _ (cid + 1) (by omega) c h
    · rw [if_neg hlt] at hc
      simp at hc

theorem fixedAux_overlap_zero (cfg : ChunkingConfig) (text : List Char) :
    ∀ fuel cur, OverlapRec cfg.overlap (fixedAux cfg text fuel cur 0) := by
  intro fuel
  induction fuel with
  | zero => intro cur; simp [fixedAux, OverlapRec]
  | succ fuel ih =>
    intro cur
    rw [fixedAux]
    by_cases hlt : cur < text.length
    · rw [if_pos hlt]
      by_cases ht : (trim (slice text cur (min (cur + cfg.chunkSize) text.length))).length = 0
      · simp only [ht, if_pos]
        exact ih _
      · rw [if_neg ht]
        refine ⟨by simp, ?_⟩
        intro c' hc'
        exact fixedAux_overlap_pos cfg text fuel _ 1 (le_refl 1) c' hc'
    · rw [if_neg hlt]
      simp [OverlapRec]

/-! ## Accumulating strategies: invariants -/

/-- Loop invariant of every greedy accumulator: the buffer is either empty
or a trimmed non-empty string. -/
def AccInv (cc : List Char) : Prop := cc = [] ∨ (trim cc = cc ∧ cc ≠ [])

theorem accInv_nil : AccInv [] := Or.inl rfl

theorem accInv_trim (s : List Char) (h : trim s ≠ []) : AccInv (trim s) :=
  Or.inr ⟨trim_trim s, h⟩

theorem accInv_joinSp (cc ts : List Char) (hcc : AccInv cc)
    (hts : trim ts = ts) (htsne : ts ≠ []) : AccInv (joinSp cc ts) := by
  rcases hcc with h | ⟨h1, h2⟩
  · subst h
    exact Or.inr ⟨by simpa [joinSp] using hts, by simpa [joinSp] using htsne⟩
  · exact Or.inr ⟨trim_joinSp cc ts h1 hts htsne, joinSp_ne_nil cc ts htsne⟩

theorem accInv_joinPara (cc ts : List Char) (hcc : AccInv cc)
    (hts : trim ts = ts) (htsne : ts ≠ []) : AccInv (joinPara cc ts) := by
  rcases hcc with h | ⟨h1, h2⟩
  · subst h
    exact Or.inr ⟨by simpa [joinPara] using hts, by simpa [joinPara] using htsne⟩
  · exact Or.inr ⟨trim_joinPara cc ts h1 hts htsne, joinPara_ne_nil cc ts htsne⟩

theorem accInv_trim_ne {cc : List Char} (h : AccInv cc) (hne : cc ≠ []) :
    trim cc ≠ [] := by
  rcases h with h | ⟨h1, _⟩
  · exact absurd h hne
  · rw [h1]; exact hne

theorem sbcLoop_meta (cfg : ChunkingConfig) :
    ∀ (ss : List (List Char)) (cc : List Char) (cur cid : Nat), AccInv cc →
      (∀ c ∈ sbcLoop cfg ss cc cur cid,
        ChunkMeta c ∧ cur ≤ c.startIndex ∧ c.overlapWith = none ∧
        c.strategy = "sentence") ∧
      List.Pairwise chunkLE (sbcLoop cfg ss cc cur cid) := by
  intro ss
  induction ss with
  | nil =>
    intro cc cur cid _
    rw [sbcLoop]
    by_cases h : (trim cc).length ≠ 0
    · rw [if_pos h]
      refine ⟨?_, by simp⟩
      intro c hc
      rcases List.mem_singleton.mp hc with rfl
      exact ⟨mkAccChunk_meta _ cc cur cid (by intro he; apply h; rw [he]; rfl),
        le_refl _, rfl, rfl⟩
    · rw [if_neg h]
      simp
  | cons s rest ih =>
    intro cc cur cid hinv
    rw [sbcLoop]
    by_cases hts : trim s = []
    · rw [if_pos hts]
      exact ih cc cur cid hinv
    · rw [if_neg hts]
      by_cases hfl : (joinSp cc (trim s)).length > cfg.chunkSize ∧ cc ≠ []
      · rw [if_pos hfl]
        have hccne : trim cc ≠ [] := accInv_trim_ne hinv hfl.2
        obtain ⟨h1, h2⟩ := ih (trim s) (cur + cc.length) (cid + 1)
          (accInv_trim s hts)
        constructor
        · intro c hc
          rcases List.mem_cons.mp hc with h | h
          · subst h
            exact ⟨mkAccChunk_meta _ cc cur cid hccne, le_refl _, rfl, rfl⟩
          · exact ⟨(h1 c h).1, le_trans (Nat.le_add_right _ _) (h1 c h).2.1,
              (h1 c h).2.2.1, (h1 c h).2.2.2⟩
        · refine List.Pairwise.cons ?_ h2
          intro b hb
          exact le_trans (Nat.le_add_right _ _) (h1 b hb).2.1
      · rw [if_neg hfl]
        exact ih (joinSp cc (trim s)) cur cid
          (accInv_joinSp cc (trim s) hinv (trim_trim s) hts)

theorem pbcLoop_meta (cfg : ChunkingConfig) :
    ∀ (ss : List (List Char)) (cc : List Char) (cur cid : Nat), AccInv cc →
      (∀ c ∈ pbcLoop cfg ss cc cur cid,
        ChunkMeta c ∧ cur ≤ c.startIndex ∧ c.overlapWith = none ∧
        c.strategy = "paragraph") ∧
      List.Pairwise chunkLE (pbcLoop cfg ss cc cur cid) := by
  intro ss
  induction ss with
  | nil =>
    intro cc cur cid _
    rw [pbcLoop]
    by_cases h : (trim cc).length ≠ 0
    · rw [if_pos h]
      refine ⟨?_, by simp⟩
      intro c hc
      rcases List.mem_singleton.mp hc with rfl
      exact ⟨mkAccChunk_meta _ cc cur cid (by intro he; apply h; rw [he]; rfl),
        le_refl _, rfl, rfl⟩
    · rw [if_neg h]
      simp
  | cons s rest ih =>
    intro cc cur cid hinv
    rw [pbcLoop]
    by_cases hts : trim s = []
    · rw [if_pos hts]
      exact ih cc cur cid hinv
    · rw [if_neg hts]
      by_cases hfl : (joinPara cc (trim s)).length > cfg.chunkSize ∧ cc ≠ []
      · rw [if_pos hfl]
        have hccne : trim cc ≠ [] := accInv_trim_ne hinv hfl.2
        obtain ⟨h1, h2⟩ := ih (trim s) (cur + cc.length) (cid + 1)
          (accInv_trim s hts)
        constructor
        · intro c hc
          rcases List.mem_cons.mp hc with h | h
          · subst h
            exact ⟨mkAccChunk_meta _ cc cur cid hccne, le_refl _, rfl, rfl⟩
          · exact ⟨(h1 c h).1, le_trans (Nat.le_add_right _ _) (h1 c h).2.1,
              (h1 c h).2.2.1, (h1 c h).2.2.2⟩
        · refine List.Pairwise.cons ?_ h2
          intro b hb
          exact le_trans (Nat.le_add_right _ _) (h1 b hb).2.1
      · rw [if_neg hfl]
        exact ih (joinPara cc (trim s)) cur cid
          (accInv_joinPara cc (trim s) hinv (trim_trim s) hts)

theorem semLoop_meta (cfg : ChunkingConfig) :
    ∀ (ss : List (List Char)) (cc : List Char) (cur cid : Nat), AccInv cc →
      (∀ c ∈ semLoop cfg ss cc cur cid,
        ChunkMeta c ∧ cur ≤ c.startIndex ∧ c.overlapWith = none ∧
        c.strategy = "semantic") ∧
      List.Pairwise chunkLE (semLoop cfg ss cc cur cid) := by
  intro ss
  induction ss with
  | nil =>
    intro cc cur cid _
    rw [semLoop]
    by_cases h : (trim cc).length ≠ 0
    · rw [if_pos h]
      refine ⟨?_, by simp⟩
      intro c hc
      rcases List.mem_singleton.mp hc with rfl
      exact ⟨mkAccChunk_meta _ cc cur cid (by intro he; apply h; rw [he]; rfl),
        le_refl _, rfl, rfl⟩
    · rw [if_neg h]
      simp
  | cons s rest ih =>
    intro cc cur cid hinv
    rw [semLoop]
    by_cases hts : trim s = []
    · rw [if_pos hts]
      exact ih cc cur cid hinv
    · rw [if_neg hts]
      by_cases hfl : shouldSplitSemantically cc (trim s) (joinSp cc (trim s)).length
          cfg.chunkSize (lookahead rest) ∧ (trim cc).length ≠ 0
      · rw [if_pos hfl]
        have hccne : trim cc ≠ [] := by
          intro he; apply hfl.2; rw [he]; rfl
        obtain ⟨h1, h2⟩ := ih (trim s) (cur + cc.length) (cid + 1)
          (accInv_trim s hts)
        constructor
        · intro c hc
          rcases List.mem_cons.mp hc with h | h
          · subst h
            exact ⟨mkAccChunk_meta _ cc cur cid hccne, le_refl _, rfl, rfl⟩
          · exact ⟨(h1 c h).1, le_trans (Nat.le_add_right _ _) (h1 c h).2.1,
              (h1 c h).2.2.1, (h1 c h).2.2.2⟩
        · refine List.Pairwise.cons ?_ h2
          intro b hb
          exact le_trans (Nat.le_add_right _ _) (h1 b hb).2.1
      · rw [if_neg hfl]
        exact ih (joinSp cc (trim s)) cur cid
          (accInv_joinSp cc (trim s) hinv (trim_trim s) hts)

/-! ## Recursive strategy: budgets and invariants -/

/-- Size dichotomy of the recursive strategy: a chunk fits in `chunkSize`
unless it is a single oversized word. -/
def SizeOK (cfg : ChunkingConfig) (c : TextChunk) : Prop :=
  c.characterCount ≤ cfg.chunkSize ∨
    (countWords c.content = 1 ∧ cfg.chunkSize < c.content.length)

/-- The trimmed, non-empty elements of a sentence list — the material the
sentence loop of the recursive strategy can still consume. -/
def keptTrims (ss : List (List Char)) : List (List Char) :=
  (ss.map trim).filter (fun t => !t.isEmpty)

theorem keptTrims_nil : keptTrims [] = [] := rfl

theorem keptTrims_cons_kept (s : List Char) (rest : List (List Char))
    (h : trim s ≠ []) : keptTrims (s :: rest) = trim s :: keptTrims rest := by
  simp [keptTrims, List.filter_cons, h]

theorem keptTrims_cons_skip (s : List Char) (rest : List (List Char))
    (h : trim s = []) : keptTrims (s :: rest) = keptTrims rest := by
  simp [keptTrims, List.filter_cons, h]

/-- Offset budget of a sentence-loop state. -/
def sentsBudget (cc : List Char) (ss : List (List Char)) : Nat :=
  if cc = [] then sumLen (keptTrims ss) + (keptTrims ss).length - 1
  else cc.length + sumLen (keptTrims ss) + (keptTrims ss).length

/-- Offset budget of a word-loop state. -/
def wordsBudget (cc : List Char) (ws : List (List Char)) : Nat :=
  if cc = [] then sumLen ws + ws.length - 1
  else cc.length + sumLen ws + ws.length

/-- Offset weight of a paragraph list (kept paragraphs plus assumed
2-character separators). -/
def parasWeight (ps : List (List Char)) : Nat :=
  ((ps.filter (fun p => (trim p).length > 0)).map (fun p => p.length + 2)).sum

/-- Offset budget of a paragraph-loop state. -/
def parasBudget (ps : List (List Char)) : Nat := parasWeight ps - 2

theorem parasWeight_nil : parasWeight [] = 0 := rfl

theorem parasWeight_cons_kept (p : List Char) (rest : List (List Char))
    (h : (trim p).length > 0) :
    parasWeight (p :: rest) = p.length + 2 + parasWeight rest := by
  simp [parasWeight, List.filter_cons, h]

theorem parasWeight_cons_skip (p : List Char) (rest : List (List Char))
    (h : ¬((trim p).length > 0)) :
    parasWeight (p :: rest) = parasWeight rest := by
  simp [parasWeight, List.filter_cons, h]

theorem sum_map_len2 (ps : List (List Char)) :
    ((ps.map (fun p => p.length + 2)).sum) = sumLen ps + 2 * ps.length := by
  induction ps with
  | nil => simp [sumLen]
  | cons p rest ih =>
    simp only [List.map_cons, List.sum_cons, sumLen_cons, List.length_cons, ih]
    omega

theorem parasWeight_le (ps : List (List Char)) :
    parasWeight ps ≤ sumLen ps + 2 * ps.length := by
  unfold parasWeight
  rw [sum_map_len2]
  have h1 := sumLen_filter_le (fun p => (trim p).length > 0) ps
  have h2 := List.length_filter_le (fun p => (trim p).length > 0) ps
  omega

theorem keptTrims_le (ss : List (List Char)) :
    sumLen (keptTrims ss) ≤ sumLen ss ∧ (keptTrims ss).length ≤ ss.length := by
  constructor
  · exact le_trans (sumLen_filter_le _ _) (sumLen_map_trim_le ss)
  · exact le_trans (List.length_filter_le _ _) (by rw [List.length_map])

/-- Low point of a recursion task. -/
def taskLow : RecTask → Nat
  | .chunk _ s => s
  | .paras _ cur => cur
  | .sents _ _ cur => cur

/-- Offset budget of a recursion task: no chunk it emits ends beyond
`taskLow + taskBudget`. -/
def taskBudget : RecTask → Nat
  | .chunk t _ => t.length
  | .paras ps _ => parasBudget ps
  | .sents ss cc _ => sentsBudget cc ss

/-- Word-loop buffer invariant: empty, or trimmed non-empty and either
within `chunkSize` or a single whitespace-free word. -/
def WordInv (cfg : ChunkingConfig) (cc : List Char) : Prop :=
  cc = [] ∨ (trim cc = cc ∧ cc ≠ [] ∧
    (cc.length ≤ cfg.chunkSize ∨ ∀ c ∈ cc, isWs c = false))

theorem wordLoop_meta (cfg : ChunkingConfig) :
    ∀ (ws : List (List Char)) (cc : List Char) (cur cid : Nat),
      (∀ w ∈ ws, w ≠ [] ∧ ∀ c ∈ w, isWs c = false) →
      WordInv cfg cc →
      (∀ c ∈ (wordLoop cfg ws cc cur cid).1,
        ChunkMeta c ∧ SizeOK cfg c ∧ cur ≤ c.startIndex ∧
        c.endIndex ≤ cur + wordsBudget cc ws ∧
        c.overlapWith = none ∧ c.strategy = "recursive") ∧
      List.Pairwise chunkLE (wordLoop cfg ws cc cur cid).1 := by
  intro ws
  induction ws with
  | nil =>
    intro cc cur cid _ hinv
    rw [wordLoop]
    by_cases h : (trim cc).length ≠ 0
    · rw [if_pos h]
      have hccne : cc ≠ [] := by
        intro he; apply h; rw [he]; rfl
      rcases hinv with he | ⟨htr, _, hdis⟩
      · exact absurd he hccne
      refine ⟨?_, by simp⟩
      intro c hc
      rcases List.mem_singleton.mp hc with rfl
      have htne : trim cc ≠ [] := by rw [htr]; exact hccne
      refine ⟨mkRecChunk_meta cc cur cid htne, ?_, le_refl _, ?_, rfl, rfl⟩
      · rcases hdis with hsz | hnw
        · exact Or.inl hsz
        · by_cases hle : cc.length ≤ cfg.chunkSize
          · exact Or.inl hle
          · refine Or.inr ⟨?_, ?_⟩
            · show countWords (trim cc) = 1
              rw [htr]
              exact countWords_single cc hnw hccne
            · show cfg.chunkSize < (trim cc).length
              rw [htr]
              omega
      · show cur + cc.length ≤ cur + wordsBudget cc []
        simp [wordsBudget, hccne, keptTrims_nil, sumLen]
    · rw [if_neg h]
      simp
  | cons w rest ih =>
    intro cc cur cid hws hinv
    have hw := hws w (List.mem_cons_self _ _)
    have hwrest : ∀ x ∈ rest, x ≠ [] ∧ ∀ c ∈ x, isWs c = false :=
      fun x hx => hws x (List.mem_cons_of_mem _ hx)
    have hwtrim : trim w = w := trim_eq_self_of_all w hw.2
    rw [wordLoop]
    by_cases hfl : (joinSp cc w).length > cfg.chunkSize ∧ cc ≠ []
    · rw [if_pos hfl]
      rcases hinv with he | ⟨htr, hne, hdis⟩
      · exact absurd he hfl.2
      have htne : trim cc ≠ [] := by rw [htr]; exact hne
      obtain ⟨h1, h2⟩ := ih w (cur + cc.length + 1) (cid + 1) hwrest
        (Or.inr ⟨hwtrim, hw.1, Or.inr hw.2⟩)
      constructor
      · intro c hc
        rcases List.mem_cons.mp hc with h | h
        · subst h
          refine ⟨mkRecChunk_meta cc cur cid htne, ?_, le_refl _, ?_, rfl, rfl⟩
          · rcases hdis with hsz | hnw
            · exact Or.inl hsz
            · by_cases hle : cc.length ≤ cfg.chunkSize
              · exact Or.inl hle
              · refine Or.inr ⟨?_, ?_⟩
                · show countWords (trim cc) = 1
                  rw [htr]
                  exact countWords_single cc hnw hne
                · show cfg.chunkSize < (trim cc).length
                  rw [htr]
                  omega
          · show cur + cc.length ≤ cur + wordsBudget cc (w :: rest)
            simp only [wordsBudget]
            rw [if_neg hne]
            omega
        · obtain ⟨hm, hs, hlow, hbud, ho, hst⟩ := h1 c h
          refine ⟨hm, hs, by omega, ?_, ho, hst⟩
          have hwne : w ≠ [] := hw.1
          simp only [wordsBudget] at hbud ⊢
          rw [if_neg hwne] at hbud
          rw [if_neg hfl.2, sumLen_cons]
          simp only [List.length_cons]
          omega
      · refine List.Pairwise.cons ?_ h2
        intro b hb
        show cur ≤ b.startIndex
        have := (h1 b hb).2.2.1
        omega
    · rw [if_neg hfl]
      have hinv' : WordInv cfg (joinSp cc w) := by
        rcases hinv with he | ⟨htr, hne, hdis⟩
        · subst he
          refine Or.inr ⟨by simpa [joinSp] using hwtrim, by simpa [joinSp] using hw.1,
            Or.inr ?_⟩
          simpa [joinSp] using hw.2
        · have hple : (joinSp cc w).length ≤ cfg.chunkSize := by
            by_contra hgt
            exact hfl ⟨by omega, hne⟩
          exact Or.inr ⟨trim_joinSp cc w htr hwtrim hw.1,
            joinSp_ne_nil cc w hw.1, Or.inl hple⟩
      obtain ⟨h1, h2⟩ := ih (joinSp cc w) cur cid hwrest hinv'
      refine ⟨?_, h2⟩
      intro c hc
      obtain ⟨hm, hs, hlow, hbud, ho, hst⟩ := h1 c hc
      refine ⟨hm, hs, hlow, ?_, ho, hst⟩
      have hjne : joinSp cc w ≠ [] := joinSp_ne_nil cc w hw.1
      simp only [wordsBudget] at hbud ⊢
      rw [if_neg hjne] at hbud
      by_cases hcce : cc = []
      · subst hcce
        rw [if_pos rfl, sumLen_cons]
        simp only [List.length_cons]
        have : joinSp [] w = w := by simp [joinSp]
        rw [this] at hbud
        omega
      · rw [if_neg hcce, sumLen_cons]
        simp only [List.length_cons]
        rw [joinSp_length cc w hcce] at hbud
        omega

/-- A paragraph loop over only whitespace paragraphs emits nothing. -/
theorem recGo_paras_nil (cfg : ChunkingConfig) :
    ∀ (fuel : Nat) (ps : List (List Char)) (cur cid : Nat),
      (∀ p ∈ ps, (trim p).length = 0) →
      recGo cfg fuel (.paras ps cur) cid = ([], cid) := by
  intro fuel
  induction fuel with
  | zero => intro ps cur cid _; rfl
  | succ fuel ih =>
    intro ps cur cid h
    cases ps with
    | nil => rfl
    | cons p rest =>
      rw [recGo]
      rw [if_neg (by simpa using h p (List.mem_cons_self _ _))]
      exact ih rest cur cid (fun q hq => h q (List.mem_cons_of_mem _ hq))

theorem parasBudget_filter_le (text : List Char) :
    parasBudget ((paraSplit text).filter (fun p => (trim p).length > 0)) ≤ text.length := by
  unfold parasBudget
  have hw := parasWeight_le ((paraSplit text).filter (fun p => (trim p).length > 0))
  have hs1 := sumLen_filter_le (fun p => (trim p).length > 0) (paraSplit text)
  have hs2 := List.length_filter_le (fun p => (trim p).length > 0) (paraSplit text)
  have hb := paraSplit_bound text
  omega

theorem sentsBudget_filter_le (text : List Char) :
    sentsBudget [] ((sentSplit text).filter (fun s => (trim s).length > 0)) ≤ text.length := by
  have h : sentsBudget [] ((sentSplit text).filter (fun s => (trim s).length > 0)) =
      sumLen (keptTrims ((sentSplit text).filter (fun s => (trim s).length > 0))) +
      (keptTrims ((sentSplit text).filter (fun s => (trim s).length > 0))).length - 1 := by
    simp [sentsBudget]
  rw [h]
  have hk := keptTrims_le ((sentSplit text).filter (fun s => (trim s).length > 0))
  have hs1 := sumLen_filter_le (fun s => (trim s).length > 0) (sentSplit text)
  have hs2 := List.length_filter_le (fun s => (trim s).length > 0) (sentSplit text)
  have hb := sentSplit_bound text
  omega

theorem wordsBudget_filter_le (text : List Char) :
    wordsBudget [] ((splitWs text).filter (fun w => (trim w).length > 0)) ≤ text.length := by
  have h : wordsBudget [] ((splitWs text).filter (fun w => (trim w).length > 0)) =
      sumLen ((splitWs text).filter (fun w => (trim w).length > 0)) +
      ((splitWs text).filter (fun w => (trim w).length > 0)).length - 1 := by
    simp [wordsBudget]
  rw [h]
  have hs1 := sumLen_filter_le (fun w => (trim w).length > 0) (splitWs text)
  have hs2 := List.length_filter_le (fun w => (trim w).length > 0) (splitWs text)
  have hb := splitWs_bound text
  omega

theorem recGo_meta (cfg : ChunkingConfig) :
    ∀ (fuel : Nat) (task : RecTask) (cid : Nat),
      (∀ c ∈ (recGo cfg fuel task cid).1,
        ChunkMeta c ∧ SizeOK cfg c ∧ taskLow task ≤ c.startIndex ∧
        c.endIndex ≤ taskLow task + taskBudget task ∧
        c.overlapWith = none ∧ c.strategy = "recursive") ∧
      List.Pairwise chunkLE (recGo cfg fuel task cid).1 := by
  intro fuel
  induction fuel with
  | zero => intro task cid; simp [recGo]
  | succ fuel ih =>
    intro task cid
    rcases task with ⟨text, start⟩ | ⟨ps, cur⟩ | ⟨ss, cc, cur⟩
    · -- chunk task
      rw [recGo]
      by_cases h0 : (trim text).length = 0
      · rw [if_pos h0]; simp
      · rw [if_neg h0]
        by_cases h1 : text.length ≤ cfg.chunkSize
        · rw [if_pos h1]
          refine ⟨?_, by simp⟩
          intro c hc
          rcases List.mem_singleton.mp hc with rfl
          refine ⟨mkRecChunk_meta text start cid (by intro he; apply h0; rw [he]; rfl),
            Or.inl h1, le_refl _, ?_, rfl, rfl⟩
          show start + text.length ≤ taskLow (.chunk text start) + taskBudget (.chunk text start)
          simp [taskLow, taskBudget]
        · rw [if_neg h1]
          by_cases hp : ((paraSplit text).filter (fun p => (trim p).length > 0)).length > 1
          · rw [if_pos hp]
            obtain ⟨g1, g2⟩ := ih (.paras ((paraSplit text).filter
              (fun p => (trim p).length > 0)) start) cid
            refine ⟨?_, g2⟩
            intro c hc
            obtain ⟨hm, hs, hlow, hbud, ho, hst⟩ := g1 c hc
            refine ⟨hm, hs, hlow, ?_, ho, hst⟩
            simp only [taskLow, taskBudget] at hbud ⊢
            have hble := parasBudget_filter_le text
            omega
          · rw [if_neg hp]
            by_cases hsn : ((sentSplit text).filter (fun s => (trim s).length > 0)).length > 1
            · rw [if_pos hsn]
              obtain ⟨g1, g2⟩ := ih (.sents ((sentSplit text).filter
                (fun s => (trim s).length > 0)) [] start) cid
              refine ⟨?_, g2⟩
              intro c hc
              obtain ⟨hm, hs, hlow, hbud, ho, hst⟩ := g1 c hc
              refine ⟨hm, hs, hlow, ?_, ho, hst⟩
              simp only [taskLow, taskBudget] at hbud ⊢
              have hble := sentsBudget_filter_le text
              omega
            · rw [if_neg hsn]
              have hws : ∀ w ∈ (splitWs text).filter (fun w => (trim w).length > 0),
                  w ≠ [] ∧ ∀ c ∈ w, isWs c = false := by
                intro w hw
                have hmem := List.mem_of_mem_filter hw
                have hpred := List.of_mem_filter hw
                refine ⟨?_, splitWs_tokens text w hmem⟩
                intro he
                rw [he] at hpred
                simp [trim] at hpred
              obtain ⟨g1, g2⟩ := wordLoop_meta cfg ((splitWs text).filter
                (fun w => (trim w).length > 0)) [] start cid hws (Or.inl rfl)
              refine ⟨?_, g2⟩
              intro c hc
              obtain ⟨hm, hs, hlow, hbud, ho, hst⟩ := g1 c hc
              refine ⟨hm, hs, hlow, ?_, ho, hst⟩
              simp only [taskLow, taskBudget]
              have hble := wordsBudget_filter_le text
              omega
    · -- paras task
      cases ps with
      | nil => simp [recGo]
      | cons p rest =>
        rw [recGo]
        by_cases hk : (trim p).length > 0
        · rw [if_pos hk]
          obtain ⟨g1, g2⟩ := ih (.chunk (trim p) cur) cid
          obtain ⟨g3, g4⟩ := ih (.paras rest (cur + p.length + 2))
            ((recGo cfg fuel (.chunk (trim p) cur) cid).2)
          simp only [taskLow, taskBudget] at g1 g3
          have hcross : ∀ a ∈ (recGo cfg fuel (.chunk (trim p) cur) cid).1,
              a.endIndex ≤ cur + p.length := by
            intro a ha
            have := (g1 a ha).2.2.2.1
            have htp := length_trim_le p
            omega
          constructor
          · intro c hc
            rcases List.mem_append.mp hc with h | h
            · obtain ⟨hm, hs, hlow, hbud, ho, hst⟩ := g1 c h
              refine ⟨hm, hs, hlow, ?_, ho, hst⟩
              simp only [taskLow, taskBudget]
              rw [parasBudget, parasWeight_cons_kept p rest hk]
              have htp := length_trim_le p
              omega
            · obtain ⟨hm, hs, hlow, hbud, ho, hst⟩ := g3 c h
              refine ⟨hm, hs, by simp only [taskLow]; omega, ?_, ho, hst⟩
              simp only [taskLow, taskBudget]
              rw [parasBudget, parasWeight_cons_kept p rest hk]
              rw [parasBudget] at hbud
              by_cases hrf : (rest.filter (fun q => (trim q).length > 0)) = []
              · have hnone : recGo cfg fuel (.paras rest (cur + p.length + 2))
                    ((recGo cfg fuel (.chunk (trim p) cur) cid).2) =
                    ([], (recGo cfg fuel (.chunk (trim p) cur) cid).2) := by
                  refine recGo_paras_nil cfg fuel rest _ _ ?_
                  intro q hq
                  by_contra hne
                  have : q ∈ rest.filter (fun q => (trim q).length > 0) :=
                    List.mem_filter.mpr ⟨hq, by simp; omega⟩
                  rw [hrf] at this
                  simp at this
                rw [hnone] at h
                simp at h
              · have hge2 : 2 ≤ parasWeight rest := by
                  unfold parasWeight
                  cases hfe : rest.filter (fun q => (trim q).length > 0) with
                  | nil => exact absurd hfe hrf
                  | cons x xs => simp [hfe]; omega
                omega
          · rw [List.pairwise_append]
            refine ⟨g2, g4, ?_⟩
            intro a ha b hb
            have h1 := (g1 a ha).1.start_le_end
            have h2 := hcross a ha
            have h3 := (g3 b hb).2.2.1
            show a.startIndex ≤ b.startIndex
            omega
        · rw [if_neg hk]
          obtain ⟨g1, g2⟩ := ih (.paras rest cur) cid
          refine ⟨?_, g2⟩
          intro c hc
          obtain ⟨hm, hs, hlow, hbud, ho, hst⟩ := g1 c hc
          refine ⟨hm, hs, hlow, ?_, ho, hst⟩
          simp only [taskLow, taskBudget] at hbud ⊢
          rw [parasBudget, parasWeight_cons_skip p rest hk]
          rw [parasBudget] at hbud
          omega
    · -- sents task
      cases ss with
      | nil =>
        rw [recGo]
        by_cases hcc : (trim cc).length ≠ 0
        · rw [if_pos hcc]
          have hccne : cc ≠ [] := by
            intro he; apply hcc; rw [he]; rfl
          obtain ⟨g1, g2⟩ := ih (.chunk cc cur) cid
          refine ⟨?_, g2⟩
          intro c hc
          obtain ⟨hm, hs, hlow, hbud, ho, hst⟩ := g1 c hc
          refine ⟨hm, hs, hlow, ?_, ho, hst⟩
          simp only [taskLow, taskBudget] at hbud ⊢
          simp only [sentsBudget]
          rw [if_neg hccne, keptTrims_nil]
          simp [sumLen] at hbud ⊢
          omega
        · rw [if_neg hcc]
          simp
      | cons s rest =>
        rw [recGo]
        by_cases hts : trim s = []
        · rw [if_pos hts]
          obtain ⟨g1, g2⟩ := ih (.sents rest cc cur) cid
          refine ⟨?_, g2⟩
          intro c hc
          obtain ⟨hm, hs, hlow, hbud, ho, hst⟩ := g1 c hc
          refine ⟨hm, hs, hlow, ?_, ho, hst⟩
          simp only [taskLow, taskBudget] at hbud ⊢
          simp only [sentsBudget] at hbud ⊢
          rw [keptTrims_cons_skip s rest hts]
          exact hbud
        · rw [if_neg hts]
          by_cases hfl : (joinSp cc (trim s)).length > cfg.chunkSize ∧ cc ≠ []
          · rw [if_pos hfl]
            obtain ⟨g1, g2⟩ := ih (.chunk cc cur) cid
            obtain ⟨g3, g4⟩ := ih (.sents rest (trim s) (cur + cc.length))
              ((recGo cfg fuel (.chunk cc cur) cid).2)
            simp only [taskLow, taskBudget] at g1 g3
            have htsne : trim s ≠ [] := hts
            constructor
            · intro c hc
              rcases List.mem_append.mp hc with h | h
              · obtain ⟨hm, hs, hlow, hbud, ho, hst⟩ := g1 c h
                refine ⟨hm, hs, hlow, ?_, ho, hst⟩
                simp only [taskLow, taskBudget]
                simp only [sentsBudget]
                rw [if_neg hfl.2, keptTrims_cons_kept s rest htsne]
                omega
              · obtain ⟨hm, hs, hlow, hbud, ho, hst⟩ := g3 c h
                refine ⟨hm, hs, by simp only [taskLow]; omega, ?_, ho, hst⟩
                simp only [taskLow, taskBudget]
                simp only [sentsBudget] at hbud ⊢
                rw [if_neg hfl.2, keptTrims_cons_kept s rest htsne]
                rw [if_neg htsne] at hbud
                rw [sumLen_cons]
                simp only [List.length_cons]
                omega
            · rw [List.pairwise_append]
              refine ⟨g2, g4, ?_⟩
              intro a ha b hb
              have h1 := (g1 a ha).1.start_le_end
              have h2 := (g1 a ha).2.2.2.1
              have h3 := (g3 b hb).2.2.1
              show a.startIndex ≤ b.startIndex
              omega
          · rw [if_neg hfl]
            obtain ⟨g1, g2⟩ := ih (.sents rest (joinSp cc (trim s)) cur) cid
            refine ⟨?_, g2⟩
            intro c hc
            obtain ⟨hm, hs, hlow, hbud, ho, hst⟩ := g1 c hc
            refine ⟨hm, hs, hlow, ?_, ho, hst⟩
            simp only [taskLow, taskBudget] at hbud ⊢
            have htsne : trim s ≠ [] := hts
            have hjne : joinSp cc (trim s) ≠ [] := joinSp_ne_nil cc (trim s) htsne
            simp only [sentsBudget] at hbud ⊢
            rw [if_neg hjne] at hbud
            rw [keptTrims_cons_kept s rest htsne]
            by_cases hcce : cc = []
            · rw [if_pos hcce]
              subst hcce
              have hj : joinSp [] (trim s) = trim s := by simp [joinSp]
              rw [hj] at hbud
              rw [sumLen_cons]
              simp only [List.length_cons]
              omega
            · rw [if_neg hcce]
              rw [joinSp_length cc (trim s) hcce] at hbud
              rw [sumLen_cons]
              simp only [List.length_cons]
              omega

/-! ## Assembly: whole-strategy and entry-point invariants -/

theorem fixedSizeChunking_meta (text : List Char) (cfg : ChunkingConfig) :
    (∀ c ∈ fixedSizeChunking text cfg, ChunkMeta c ∧ c.strategy = "fixed") ∧
    List.Pairwise chunkLE (fixedSizeChunking text cfg) := by
  obtain ⟨h1, h2⟩ := fixedAux_meta cfg text (text.length + 1) 0 0
  exact ⟨fun c hc => ⟨(h1 c hc).1, (h1 c hc).2.2⟩, h2⟩

theorem sentenceBasedChunking_meta (text : List Char) (cfg : ChunkingConfig) :
    (∀ c ∈ sentenceBasedChunking text cfg,
      ChunkMeta c ∧ c.overlapWith = none ∧ c.strategy = "sentence") ∧
    List.Pairwise chunkLE (sentenceBasedChunking text cfg) := by
  obtain ⟨h1, h2⟩ := sbcLoop_meta cfg
    ((sentSplit text).filter (fun s => (trim s).length > 0)) [] 0 0 accInv_nil
  exact ⟨fun c hc => ⟨(h1 c hc).1, (h1 c hc).2.2.1, (h1 c hc).2.2.2⟩, h2⟩

theorem paragraphBasedChunking_meta (text : List Char) (cfg : ChunkingConfig) :
    (∀ c ∈ paragraphBasedChunking text cfg,
      ChunkMeta c ∧ c.overlapWith = none ∧ c.strategy = "paragraph") ∧
    List.Pairwise chunkLE (paragraphBasedChunking text cfg) := by
  obtain ⟨h1, h2⟩ := pbcLoop_meta cfg
    ((paraSplit text).filter (fun p => (trim p).length > 0)) [] 0 0 accInv_nil
  exact ⟨fun c hc => ⟨(h1 c hc).1, (h1 c hc).2.2.1, (h1 c hc).2.2.2⟩, h2⟩

theorem semanticChunking_meta (text : List Char) (cfg : ChunkingConfig) :
    (∀ c ∈ semanticChunking text cfg,
      ChunkMeta c ∧ c.overlapWith = none ∧ c.strategy = "semantic") ∧
    List.Pairwise chunkLE (semanticChunking text cfg) := by
  obtain ⟨h1, h2⟩ := semLoop_meta cfg
    ((sentSplit text).filter (fun s => (trim s).length > 0)) [] 0 0 accInv_nil
  exact ⟨fun c hc => ⟨(h1 c hc).1, (h1 c hc).2.2.1, (h1 c hc).2.2.2⟩, h2⟩

theorem recursiveChunking_meta (text : List Char) (cfg : ChunkingConfig) :
    (∀ c ∈ recursiveChunking text cfg,
      ChunkMeta c ∧ SizeOK cfg c ∧ c.overlapWith = none ∧ c.strategy = "recursive") ∧
    List.Pairwise chunkLE (recursiveChunking text cfg) := by
  obtain ⟨h1, h2⟩ := recGo_meta cfg (recFuel text) (.chunk text 0) 0
  exact ⟨fun c hc => ⟨(h1 c hc).1, (h1 c hc).2.1, (h1 c hc).2.2.2.2.1,
    (h1 c hc).2.2.2.2.2⟩, h2⟩

theorem runStrategy_meta (text : List Char) (cfg : ChunkingConfig)
    (chunks : List TextChunk) (h : runStrategy text cfg = .ok chunks) :
    (∀ c ∈ chunks, ChunkMeta c) ∧ List.Pairwise chunkLE chunks ∧
    (cfg.strategy ≠ "fixed" → ∀ c ∈ chunks, c.overlapWith = none) := by
  unfold runStrategy at h
  by_cases s1 : cfg.strategy = "fixed"
  · rw [if_pos s1] at h
    obtain rfl : fixedSizeChunking text cfg = chunks := by
      simpa using h
    obtain ⟨h1, h2⟩ := fixedSizeChunking_meta text cfg
    exact ⟨fun c hc => (h1 c hc).1, h2, fun hne => absurd s1 hne⟩
  · rw [if_neg s1] at h
    by_cases s2 : cfg.strategy = "sentence"
    · rw [if_pos s2] at h
      obtain rfl : sentenceBasedChunking text cfg = chunks := by simpa using h
      obtain ⟨h1, h2⟩ := sentenceBasedChunking_meta text cfg
      exact ⟨fun c hc => (h1 c hc).1, h2, fun _ c hc => (h1 c hc).2.1⟩
    · rw [if_neg s2] at h
      by_cases s3 : cfg.strategy = "paragraph"
      · rw [if_pos s3] at h
        obtain rfl : paragraphBasedChunking text cfg = chunks := by simpa using h
        obtain ⟨h1, h2⟩ := paragraphBasedChunking_meta text cfg
        exact ⟨fun c hc => (h1 c hc).1, h2, fun _ c hc => (h1 c hc).2.1⟩
      · rw [if_neg s3] at h
        by_cases s4 : cfg.strategy = "recursive"
        · rw [if_pos s4] at h
          obtain rfl : recursiveChunking text cfg = chunks := by simpa using h
          obtain ⟨h1, h2⟩ := recursiveChunking_meta text cfg
          exact ⟨fun c hc => (h1 c hc).1, h2, fun _ c hc => (h1 c hc).2.2.1⟩
        · rw [if_neg s4] at h
          by_cases s5 : cfg.strategy = "semantic"
          · rw [if_pos s5] at h
            obtain rfl : semanticChunking text cfg = chunks := by simpa using h
            obtain ⟨h1, h2⟩ := semanticChunking_meta text cfg
            exact ⟨fun c hc => (h1 c hc).1, h2, fun _ c hc => (h1 c hc).2.1⟩
          · rw [if_neg s5] at h
            simp at h

/-- Decomposition of a successful `chunkText` call. -/
theorem chunkText_ok (text : List Char) (cfg : ChunkingConfig) (r : ChunkingResult)
    (h : chunkText text cfg = .ok r) :
    r.totalChunks = r.chunks.length ∧ r.strategy = cfg.strategy ∧
    (((trim text).length = 0 ∧ r.chunks = []) ∨
      runStrategy text cfg = .ok r.chunks) := by
  unfold chunkText at h
  by_cases he : (trim text).length = 0
  · rw [if_pos he] at h
    simp only [Except.ok.injEq] at h
    subst h
    exact ⟨rfl, rfl, Or.inl ⟨he, rfl⟩⟩
  · rw [if_neg he] at h
    cases hrs : runStrategy text cfg with
    | error e => rw [hrs] at h; simp at h
    | ok chunks =>
      rw [hrs] at h
      simp only [Except.ok.injEq] at h
      subst h
      exact ⟨rfl, rfl, Or.inr rfl⟩

/-- Every chunk of every successful run satisfies `ChunkMeta`; the chunk
list is in document order; `totalChunks` counts it; non-fixed strategies
leave the overlap field unset. -/
theorem chunkText_meta (text : List Char) (cfg : ChunkingConfig) (r : ChunkingResult)
    (h : chunkText text cfg = .ok r) :
    r.totalChunks = r.chunks.length ∧
    (∀ c ∈ r.chunks, ChunkMeta c) ∧ List.Pairwise chunkLE r.chunks ∧
    (cfg.strategy ≠ "fixed" → ∀ c ∈ r.chunks, c.overlapWith = none) := by
  obtain ⟨h1, _, h3⟩ := chunkText_ok text cfg r h
  rcases h3 with ⟨_, he⟩ | hrs
  · exact ⟨h1, by rw [he]; simp, by rw [he]; simp, fun _ => by rw [he]; simp⟩
  · obtain ⟨g1, g2, g3⟩ := runStrategy_meta text cfg r.chunks hrs
    exact ⟨h1, g1, g2, g3⟩

/-- A valid configuration in the sense of the specification. -/
def ValidConfig (cfg : ChunkingConfig) : Prop :=
  cfg.strategy ∈ recognizedStrategies ∧ 0 < cfg.chunkSize ∧
    cfg.overlap < cfg.chunkSize

/-- The overlap bookkeeping of a successful fixed-strategy run. -/
theorem chunkText_fixed_overlap (text : List Char) (cfg : ChunkingConfig)
    (r : ChunkingResult) (hst : cfg.strategy = "fixed")
    (h : chunkText text cfg = .ok r) : OverlapRec cfg.overlap r.chunks := by
  obtain ⟨_, _, h3⟩ := chunkText_ok text cfg r h
  rcases h3 with ⟨_, he⟩ | hrs
  · rw [he]; trivial
  · unfold runStrategy at hrs
    rw [if_pos hst] at hrs
    simp only [Except.ok.injEq] at hrs
    rw [← hrs]
    exact fixedAux_overlap_zero cfg text (text.length + 1) 0

/-- The size dichotomy of a successful recursive-strategy run. -/
theorem chunkText_recursive_size (text : List Char) (cfg : ChunkingConfig)
    (r : ChunkingResult) (hst : cfg.strategy = "recursive")
    (h : chunkText text cfg = .ok r) : ∀ c ∈ r.chunks, SizeOK cfg c := by
  obtain ⟨_, _, h3⟩ := chunkText_ok text cfg r h
  rcases h3 with ⟨_, he⟩ | hrs
  · rw [he]; simp
  · unfold runStrategy at hrs
    rw [if_neg (by rw [hst]; decide), if_neg (by rw [hst]; decide),
      if_neg (by rw [hst]; decide), if_pos hst] at hrs
    simp only [Except.ok.injEq] at hrs
    rw [← hrs]
    intro c hc
    exact ((recursiveChunking_meta text cfg).1 c hc).2.1

/-! ## Sentence-preserving structure of the sentence strategy -/

/-- Join a group of sentences with single spaces, exactly as the greedy
accumulator builds its buffer. -/
def joinWords (g : List (List Char)) : List Char := g.foldl joinSp []

theorem joinWords_nil : joinWords [] = [] := rfl

theorem joinWords_singleton (t : List Char) : joinWords [t] = t := by
  simp [joinWords, joinSp]

theorem joinWords_append_single (g : List (List Char)) (t : List Char) :
    joinWords (g ++ [t]) = joinSp (joinWords g) t := by
  simp [joinWords, List.foldl_append]

/-- The trimmed sentences of the input text, in order: the units the
sentence strategy never splits. -/
def sentencesOf (text : List Char) : List (List Char) :=
  keptTrims ((sentSplit text).filter (fun s => (trim s).length > 0))

theorem sbcLoop_groups (cfg : ChunkingConfig) :
    ∀ (ss : List (List Char)) (cc : List Char) (cur cid : Nat)
      (g0 : List (List Char)),
      cc = joinWords g0 → (g0 = [] → cc = []) → (cc = [] → g0 = []) →
      AccInv cc →
      (2 ≤ g0.length → cc.length ≤ cfg.chunkSize) →
      ∃ gs : List (List (List Char)),
        gs.flatten = g0 ++ keptTrims ss ∧
        (sbcLoop cfg ss cc cur cid).map (fun c => c.content) = gs.map joinWords ∧
        (∀ g ∈ gs, g ≠ []) ∧
        (∀ g ∈ gs, 2 ≤ g.length → (joinWords g).length ≤ cfg.chunkSize) := by
  intro ss
  induction ss with
  | nil =>
    intro cc cur cid g0 hj hg0 hcc0 hinv hsz
    rw [sbcLoop]
    by_cases h : (trim cc).length ≠ 0
    · rw [if_pos h]
      have hccne : cc ≠ [] := by
        intro he; apply h; rw [he]; rfl
      have hg0ne : g0 ≠ [] := by
        intro he; exact hccne (hg0 he)
      have htr : trim cc = cc := by
        rcases hinv with he | ⟨h1, _⟩
        · exact absurd he hccne
        · exact h1
      refine ⟨[g0], by simp [keptTrims_nil], ?_, by simpa using hg0ne, ?_⟩
      · show [trim cc] = [joinWords g0]
        rw [htr, hj]
      · intro g hg
        rcases List.mem_singleton.mp hg with rfl
        intro h2
        rw [← hj]
        exact hsz h2
    · rw [if_neg h]
      have hcce : cc = [] := by
        rcases hinv with he | ⟨h1, h2⟩
        · exact he
        · refine absurd ?_ h
          rw [h1]
          intro hlen
          exact h2 (List.length_eq_zero.mp hlen)
      refine ⟨[], ?_, by simp, by simp, by simp⟩
      rw [hcc0 hcce, keptTrims_nil]
      rfl
  | cons s rest ih =>
    intro cc cur cid g0 hj hg0 hcc0 hinv hsz
    rw [sbcLoop]
    by_cases hts : trim s = []
    · rw [if_pos hts]
      rw [keptTrims_cons_skip s rest hts]
      exact ih cc cur cid g0 hj hg0 hcc0 hinv hsz
    · rw [if_neg hts]
      rw [keptTrims_cons_kept s rest hts]
      by_cases hfl : (joinSp cc (trim s)).length > cfg.chunkSize ∧ cc ≠ []
      · rw [if_pos hfl]
        have htr : trim cc = cc := by
          rcases hinv with he | ⟨h1, _⟩
          · exact absurd he hfl.2
          · exact h1
        have hg0ne : g0 ≠ [] := by
          intro he; exact hfl.2 (hg0 he)
        obtain ⟨gs, hgsj, hgsm, hgsne, hgssz⟩ := ih (trim s) (cur + cc.length)
          (cid + 1) [trim s] (joinWords_singleton _).symm
          (by simp) (fun h => absurd h hts) (accInv_trim s hts)
          (by intro h2; simp at h2)
        refine ⟨g0 :: gs, ?_, ?_, ?_, ?_⟩
        · simp only [List.flatten_cons, hgsj]
          simp
        · simp only [List.map_cons]
          rw [hgsm]
          show trim cc :: _ = joinWords g0 :: _
          rw [htr, hj]
        · intro g hg
          rcases List.mem_cons.mp hg with rfl | hmem
          · exact hg0ne
          · exact hgsne g hmem
        · intro g hg
          rcases List.mem_cons.mp hg with rfl | hmem
          · intro h2
            rw [← hj]
            exact hsz h2
          · exact hgssz g hmem
      · rw [if_neg hfl]
        have hjne : joinSp cc (trim s) ≠ [] := joinSp_ne_nil cc (trim s) hts
        have hsz2 : 2 ≤ (g0 ++ [trim s]).length →
            (joinSp cc (trim s)).length ≤ cfg.chunkSize := by
          intro h2
          by_cases hg0e : g0 = []
          · subst hg0e
            have hce : cc = [] := hg0 rfl
            subst hce
            simp at h2
          · have hccne : cc ≠ [] := fun he => hg0e (hcc0 he)
            by_contra hgt
            exact hfl ⟨by omega, hccne⟩
        obtain ⟨gs, hgsj, hgsm, hgsne, hgssz⟩ := ih (joinSp cc (trim s)) cur cid
          (g0 ++ [trim s]) (by rw [joinWords_append_single, ← hj])
          (by intro h; simp at h) (fun h => absurd h hjne)
          (accInv_joinSp cc (trim s) hinv (trim_trim s) hts) hsz2
        refine ⟨gs, ?_, hgsm, hgsne, hgssz⟩
        rw [hgsj, List.append_assoc]
        simp

/-! ## Exact behaviour of the fixed-size strategy with zero overlap -/

theorem fixedAux_stop (cfg : ChunkingConfig) (text : List Char)
    (fuel cur cid : Nat) (h : ¬(cur < text.length)) :
    fixedAux cfg text fuel cur cid = [] := by
  cases fuel with
  | zero => rfl
  | succ fuel => rw [fixedAux, if_neg h]

/-- The `k`-th fixed window of `text` (with zero overlap). -/
def window (cfg : ChunkingConfig) (text : List Char) (k : Nat) : List Char :=
  slice text (k * cfg.chunkSize)
    (min (k * cfg.chunkSize + cfg.chunkSize) text.length)

/-- Every fixed window of the text is unchanged by trimming (no boundary
whitespace falls on a window edge). -/
def WindowsTrimmed (cfg : ChunkingConfig) (text : List Char) : Prop :=
  ∀ k < text.length, k * cfg.chunkSize < text.length →
    trim (window cfg text k) = window cfg text k

instance (cfg : ChunkingConfig) (text : List Char) :
    Decidable (WindowsTrimmed cfg text) := by
  unfold WindowsTrimmed
  infer_instance

theorem fixedAux_exact (cfg : ChunkingConfig) (text : List Char)
    (hsz : 0 < cfg.chunkSize) (hov : cfg.overlap = 0)
    (hw : WindowsTrimmed cfg text) :
    ∀ fuel j cid, j * cfg.chunkSize < text.length →
      text.length - j * cfg.chunkSize ≤ fuel →
      (((fixedAux cfg text fuel (j * cfg.chunkSize) cid).map
          (fun c => c.content)).flatten = text.drop (j * cfg.chunkSize) ∧
       (fixedAux cfg text fuel (j * cfg.chunkSize) cid).length =
         (text.length - j * cfg.chunkSize - 1) / cfg.chunkSize + 1) := by
  intro fuel
  induction fuel with
  | zero =>
    intro j cid hcur hfuel
    omega
  | succ fuel ih =>
    intro j cid hcur hfuel
    have hjlt : j < text.length :=
      lt_of_le_of_lt (Nat.le_mul_of_pos_right j hsz) hcur
    have hwj := hw j hjlt hcur
    unfold window at hwj
    simp only [fixedAux]
    rw [if_pos hcur]
    have hlen : (slice text (j * cfg.chunkSize)
        (min (j * cfg.chunkSize + cfg.chunkSize) text.length)).length =
        min (j * cfg.chunkSize + cfg.chunkSize) text.length - j * cfg.chunkSize :=
      length_slice text _ _ (le_min (Nat.le_add_right _ _) (le_of_lt hcur))
        (min_le_right _ _)
    have hwne : ¬((trim (slice text (j * cfg.chunkSize)
        (min (j * cfg.chunkSize + cfg.chunkSize) text.length))).length = 0) := by
      rw [hwj, hlen]
      omega
    rw [if_neg hwne]
    rw [hov]
    have hstep : j * cfg.chunkSize + (cfg.chunkSize - 0) = (j + 1) * cfg.chunkSize := by
      rw [Nat.succ_mul]
      omega
    rw [hstep]
    by_cases hnext : (j + 1) * cfg.chunkSize < text.length
    · obtain ⟨ihj, ihc⟩ := ih (j + 1) (cid + 1) hnext (by omega)
      constructor
      · simp only [List.map_cons, List.flatten_cons, ihj]
        rw [hwj]
        unfold slice
        have hmin : min (j * cfg.chunkSize + cfg.chunkSize) text.length =
            j * cfg.chunkSize + cfg.chunkSize := by
          rw [Nat.succ_mul] at hnext
          omega
        rw [hmin]
        have harg : j * cfg.chunkSize + cfg.chunkSize - j * cfg.chunkSize =
            cfg.chunkSize := by omega
        rw [harg]
        have hdd : text.drop ((j + 1) * cfg.chunkSize) =
            (text.drop (j * cfg.chunkSize)).drop cfg.chunkSize := by
          rw [List.drop_drop]
          rw [Nat.succ_mul]
        rw [hdd]
        exact List.take_append_drop cfg.chunkSize (text.drop (j * cfg.chunkSize))
      · simp only [List.length_cons, ihc]
        have h1 : cfg.chunkSize ≤ text.length - j * cfg.chunkSize - 1 := by
          rw [Nat.succ_mul] at hnext
          omega
        have h2 : text.length - (j + 1) * cfg.chunkSize - 1 =
            text.length - j * cfg.chunkSize - 1 - cfg.chunkSize := by
          rw [Nat.succ_mul]
          omega
        rw [h2, Nat.div_eq_sub_div hsz h1]
    · have hstop : fixedAux cfg text fuel ((j + 1) * cfg.chunkSize) (cid + 1) = [] :=
        fixedAux_stop cfg text fuel _ _ hnext
      rw [hstop]
      constructor
      · simp only [List.map_cons, List.map_nil, List.flatten_cons, List.flatten_nil,
          List.append_nil]
        rw [hwj]
        unfold slice
        have hmin : min (j * cfg.chunkSize + cfg.chunkSize) text.length =
            text.length := by
          rw [Nat.succ_mul] at hnext
          omega
        rw [hmin]
        have harg : text.length - j * cfg.chunkSize =
            (text.drop (j * cfg.chunkSize)).length := by
          rw [List.length_drop]
        rw [harg, List.take_length]
      · simp only [List.length_cons, List.length_nil]
        have : text.length - j * cfg.chunkSize - 1 < cfg.chunkSize := by
          rw [Nat.succ_mul] at hnext
          omega
        rw [Nat.div_eq_of_lt this]

/-- Ceiling division, `⌈a / b⌉`. -/
def ceilDiv (a b : Nat) : Nat := (a + b - 1) / b

theorem fixedSizeChunking_exact (text : List Char) (cfg : ChunkingConfig)
    (hsz : 0 < cfg.chunkSize) (hov : cfg.overlap = 0)
    (h0 : 0 < text.length) (hw : WindowsTrimmed cfg text) :
    ((fixedSizeChunking text cfg).map (fun c => c.content)).flatten = text ∧
    (fixedSizeChunking text cfg).length = ceilDiv text.length cfg.chunkSize := by
  have h := fixedAux_exact cfg text hsz hov hw (text.length + 1) 0 0
    (by simpa using h0) (by omega)
  rw [Nat.zero_mul] at h
  unfold fixedSizeChunking
  refine ⟨by rw [h.1]; rfl, ?_⟩
  rw [h.2]
  unfold ceilDiv
  have h1 : text.length + cfg.chunkSize - 1 = (text.length - 1) + cfg.chunkSize := by
    omega
  rw [h1, Nat.add_div_right _ hsz]
  have h2 : text.length - 0 - 1 = text.length - 1 := by omega
  rw [h2]

/-- Under window-trim invariance the whole text is already trimmed. -/
theorem windowsTrimmed_trim (text : List Char) (cfg : ChunkingConfig)
    (hsz : 0 < cfg.chunkSize) (h0 : 0 < text.length)
    (hw : WindowsTrimmed cfg text) : trim text = text := by
  refine trim_eq_self text ?_ ?_
  · intro c hc
    have hw0 := hw 0 h0 (by simpa using h0)
    have hwin : window cfg text 0 = text.take (min cfg.chunkSize text.length) := by
      unfold window slice
      simp
    have hhd : (window cfg text 0).head? = text.head? := by
      rw [hwin]
      cases text with
      | nil => simp at h0
      | cons a t =>
        have hmin : 0 < min cfg.chunkSize (a :: t).length := by
          refine Nat.lt_min.mpr ⟨hsz, ?_⟩
          simp
        cases hm : min cfg.chunkSize (a :: t).length with
        | zero => omega
        | succ n => simp
    refine trim_head?_not (window cfg text 0) c ?_
    rw [hw0, hhd]
    exact hc
  · intro c hc
    set k0 := (text.length - 1) / cfg.chunkSize with hk0
    have hdm := Nat.div_add_mod (text.length - 1) cfg.chunkSize
    rw [Nat.mul_comm] at hdm
    rw [← hk0] at hdm
    have hmod := Nat.mod_lt (text.length - 1) hsz
    have hk0lt : k0 * cfg.chunkSize < text.length := by omega
    have hk0le : text.length ≤ k0 * cfg.chunkSize + cfg.chunkSize := by omega
    have hwk := hw k0 (lt_of_le_of_lt (Nat.le_mul_of_pos_right k0 hsz) hk0lt) hk0lt
    have hwin : window cfg text k0 = text.drop (k0 * cfg.chunkSize) := by
      unfold window slice
      rw [min_eq_right hk0le]
      have harg : text.length - k0 * cfg.chunkSize =
          (text.drop (k0 * cfg.chunkSize)).length := by
        rw [List.length_drop]
      rw [harg, List.take_length]
    have hdne : text.drop (k0 * cfg.chunkSize) ≠ [] := by
      intro he
      have := congrArg List.length he
      rw [List.length_drop] at this
      simp at this
      omega
    have hlast : (window cfg text k0).getLast? = text.getLast? := by
      rw [hwin]
      conv_rhs => rw [← List.take_append_drop (k0 * cfg.chunkSize) text]
      rw [getLast?_append_right _ _ hdne]
    refine trim_getLast?_not (window cfg text k0) c ?_
    rw [hwk, hlast]
    exact hc

/-! ## The semantic split rule and Jaccard similarity -/

/-- Jaccard similarity of two finite keyword sets (0 when either is empty,
as the source guards). -/
def jaccardQ (A B : Finset (List Char)) : ℚ :=
  if A = ∅ ∨ B = ∅ then 0 else ((A ∩ B).card : ℚ) / ((A ∪ B).card : ℚ)

theorem contains_eq_mem (l : List (List Char)) (a : List Char) :
    (l.contains a = true) ↔ a ∈ l := by
  constructor
  · exact List.mem_of_elem_eq_true
  · exact List.elem_eq_true_of_mem

theorem inter_card (s1 s2 : List (List Char)) (h1 : s1.Nodup) :
    (s1.filter (fun w => s2.contains w)).length =
      (s1.toFinset ∩ s2.toFinset).card := by
  have hfn : (s1.filter (fun w => s2.contains w)).Nodup :=
    h1.filter (fun w => s2.contains w)
  have hset : (s1.filter (fun w => s2.contains w)).toFinset =
      s1.toFinset ∩ s2.toFinset := by
    ext a
    simp only [List.mem_toFinset, List.mem_filter, Finset.mem_inter,
      contains_eq_mem]
  calc (s1.filter (fun w => s2.contains w)).length
      = (s1.filter (fun w => s2.contains w)).dedup.length := by
        rw [List.dedup_eq_self.mpr hfn]
    _ = (s1.filter (fun w => s2.contains w)).toFinset.card :=
        (List.card_toFinset _).symm
    _ = (s1.toFinset ∩ s2.toFinset).card := by rw [hset]

theorem union_card (s1 s2 : List (List Char)) :
    (s1 ++ s2).dedup.length = (s1.toFinset ∪ s2.toFinset).card := by
  rw [← List.toFinset_append]
  exact (List.card_toFinset _).symm

theorem calculateSimilarity_eq_jaccard (s1 s2 : List (List Char))
    (h1 : s1.Nodup) :
    calculateSimilarity s1 s2 = jaccardQ s1.toFinset s2.toFinset := by
  unfold calculateSimilarity jaccardQ
  have hd1 : s1.dedup = s1 := List.dedup_eq_self.mpr h1
  have hc1 : s1.toFinset.card = s1.dedup.length := List.card_toFinset s1
  have hc2 : s2.toFinset.card = s2.dedup.length := List.card_toFinset s2
  have h1z : s1.toFinset = ∅ ↔ s1.dedup.length = 0 := by
    rw [← Finset.card_eq_zero, hc1]
  have h2z : s2.toFinset = ∅ ↔ s2.dedup.length = 0 := by
    rw [← Finset.card_eq_zero, hc2]
  by_cases hz : s1.dedup.length = 0 ∨ s2.dedup.length = 0
  · rw [if_pos hz, if_pos ?_]
    rcases hz with h | h
    · exact Or.inl (h1z.mpr h)
    · exact Or.inr (h2z.mpr h)
  · rw [if_neg hz, if_neg ?_]
    · congr 1
      · have := inter_card s1 s2 h1
        rw [hd1]
        exact_mod_cast this
      · have := union_card s1 s2
        exact_mod_cast this
    · intro hcon
      rcases hcon with h | h
      · exact hz (Or.inl (h1z.mp h))
      · exact hz (Or.inr (h2z.mp h))

theorem extractKeywords_nodup (t : List Char) : (extractKeywords t).Nodup := by
  unfold extractKeywords
  exact List.nodup_dedup _

theorem extractKeywords_nil : extractKeywords [] = [] := rfl

theorem jaccardQ_empty_right (A : Finset (List Char)) : jaccardQ A ∅ = 0 :=
  if_pos (Or.inr rfl)

/-- C9: the semantic split predicate follows the specified rule exactly:
always split on `totalLength > maxSize`; otherwise never split while the
buffer is below 30% of `maxSize`; otherwise split exactly when one of the
three threshold conditions over Jaccard keyword similarity and topic
transitions holds. -/
theorem c9_semantic_split_rule (currentChunk nextSentence : List Char)
    (totalLength maxSize : Nat) (followingSentence : List Char) :
    shouldSplitSemantically currentChunk nextSentence totalLength maxSize
        followingSentence = true ↔
    (maxSize < totalLength ∨
      (¬((currentChunk.length : ℚ) < (3 / 10) * (maxSize : ℚ)) ∧
        ((jaccardQ (extractKeywords currentChunk).toFinset
              (extractKeywords nextSentence).toFinset < 2 / 10 ∧
            (6 / 10) * (maxSize : ℚ) < (totalLength : ℚ)) ∨
         (detectTopicTransition currentChunk nextSentence = true ∧
            (4 / 10) * (maxSize : ℚ) < (totalLength : ℚ)) ∨
         ((3 / 2) * jaccardQ (extractKeywords currentChunk).toFinset
              (extractKeywords nextSentence).toFinset <
            jaccardQ (extractKeywords nextSentence).toFinset
              (extractKeywords followingSentence).toFinset ∧
            (5 / 10) * (maxSize : ℚ) < (totalLength : ℚ))))) := by
  unfold shouldSplitSemantically
  by_cases h1 : totalLength > maxSize
  · rw [if_pos h1]
    simp [h1]
  · rw [if_neg h1]
    by_cases h2 : (currentChunk.length : ℚ) < (maxSize : ℚ) * (3 / 10)
    · rw [if_pos h2]
      simp only [Bool.false_eq_true, false_iff]
      intro hcon
      rcases hcon with h | ⟨hna, _⟩
      · exact h1 h
      · apply hna
        rw [mul_comm]
        exact h2
    · rw [if_neg h2]
      have h2' : ¬((currentChunk.length : ℚ) < (3 / 10) * (maxSize : ℚ)) := by
        rw [mul_comm]
        exact h2
      have hsim := calculateSimilarity_eq_jaccard (extractKeywords currentChunk)
        (extractKeywords nextSentence) (extractKeywords_nodup currentChunk)
      have hcsim : (if followingSentence ≠ [] then
          calculateSimilarity (extractKeywords nextSentence)
            (if followingSentence ≠ [] then extractKeywords followingSentence else [])
          else 0) =
          jaccardQ (extractKeywords nextSentence).toFinset
            (extractKeywords followingSentence).toFinset := by
        by_cases hfol : followingSentence = []
        · rw [if_neg (by simpa using hfol)]
          rw [hfol, extractKeywords_nil]
          show (0 : ℚ) = jaccardQ _ (List.toFinset [])
          rw [List.toFinset_nil, jaccardQ_empty_right]
        · rw [if_pos hfol, if_pos hfol]
          exact calculateSimilarity_eq_jaccard _ _ (extractKeywords_nodup nextSentence)
      rw [decide_eq_true_iff]
      rw [hsim, hcsim]
      constructor
      · rintro (⟨ha, hb⟩ | ⟨ha, hb⟩ | ⟨ha, hb⟩)
        · exact Or.inr ⟨h2', Or.inl ⟨ha, by rwa [mul_comm]⟩⟩
        · exact Or.inr ⟨h2', Or.inr (Or.inl ⟨ha, by rwa [mul_comm]⟩)⟩
        · exact Or.inr ⟨h2', Or.inr (Or.inr ⟨by rwa [mul_comm], by rwa [mul_comm]⟩)⟩
      · rintro (h | ⟨_, (⟨ha, hb⟩ | ⟨ha, hb⟩ | ⟨ha, hb⟩)⟩)
        · exact absurd h h1
        · exact Or.inl ⟨ha, by rwa [mul_comm]⟩
        · exact Or.inr (Or.inl ⟨ha, by rwa [mul_comm]⟩)
        · exact Or.inr (Or.inr ⟨by rwa [mul_comm], by rwa [mul_comm]⟩)

/-! ## Claims -/

/-- Extract the result of a successful run (dummy on error). -/
def getOk (e : Except String ChunkingResult) : ChunkingResult :=
  match e with
  | .ok r => r
  | .error _ => { chunks := [], totalChunks := 0, averageChunkSize := 0, strategy := "" }

/-- The overlap bookkeeping claimed in C6: each non-first chunk records
`min ov previous.characterCount`. -/
def overlapClaimGo (ov : Nat) (prev : TextChunk) : List TextChunk → Bool
  | [] => true
  | c :: rest =>
    (c.overlapWith == some (min ov prev.characterCount)) && overlapClaimGo ov c rest

def overlapClaimB (ov : Nat) : List TextChunk → Bool
  | [] => true
  | c :: rest => (c.overlapWith == some 0) && overlapClaimGo ov c rest

/-- C1 counterexample: `chunkSize = 0` is not a positive integer, yet the
entry point succeeds (no configuration validation exists in the code). -/
theorem c1_counterexample :
    (chunkText ("Hi.".toList)
        { chunkSize := 0, overlap := 0, strategy := "sentence" }).toOption.map
      (fun r => r.totalChunks) = some 1 := by
  rfl

/-- C1 (amended): only an unrecognized strategy discriminant is rejected,
and only when the trimmed text is non-empty; the entry point then fails
with an error naming the unknown strategy value.  `chunkSize > 0` and
`overlap < chunkSize` are never validated. -/
theorem c1_unknown_strategy_error (text : List Char) (cfg : ChunkingConfig)
    (hne : (trim text).length ≠ 0) (hs : cfg.strategy ∉ recognizedStrategies) :
    chunkText text cfg =
      .error ("Chunking failed: Unknown chunking strategy: " ++ cfg.strategy) := by
  unfold chunkText
  rw [if_neg hne]
  unfold runStrategy
  simp only [recognizedStrategies, List.mem_cons, List.not_mem_nil, or_false,
    not_or] at hs
  rw [if_neg hs.1, if_neg hs.2.1, if_neg hs.2.2.1, if_neg hs.2.2.2.1,
    if_neg hs.2.2.2.2]
  rfl

/-- C1 witness. -/
theorem c1_witness :
    (trim ("Hi.".toList)).length ≠ 0 ∧
    "bogus" ∉ recognizedStrategies ∧
    chunkText ("Hi.".toList) { chunkSize := 10, overlap := 2, strategy := "bogus" } =
      .error ("Chunking failed: Unknown chunking strategy: " ++ "bogus") :=
  ⟨by decide, by decide,
    c1_unknown_strategy_error ("Hi.".toList)
      { chunkSize := 10, overlap := 2, strategy := "bogus" } (by decide) (by decide)⟩

/-- C2 counterexample: for `"ab cd"` with `chunkSize = 3` the first window
is `"ab "`; its `characterCount` is 3 (the untrimmed span length) while its
`content` is the trimmed `"ab"` of length 2. -/
theorem c2_counterexample :
    (chunkText ("ab cd".toList)
        { chunkSize := 3, overlap := 0, strategy := "fixed" }).toOption.map
      (fun r => r.chunks.map (fun c => c.characterCount == c.content.length)) =
    some [false, true] := by
  rfl

/-- C2 (amended): `wordCount` does equal the whitespace token count of
`content`, but `characterCount` is the length of the chunk's *untrimmed*
source span (of which `content` is the trim), so it can exceed
`content.length`. -/
theorem c2_metadata_amended (text : List Char) (cfg : ChunkingConfig)
    (r : ChunkingResult) (hv : ValidConfig cfg) (hne : (trim text).length ≠ 0)
    (h : chunkText text cfg = .ok r) :
    ∀ c ∈ r.chunks, c.wordCount = countWords c.content ∧
      c.content.length ≤ c.characterCount ∧
      ∃ span, c.content = trim span ∧ c.characterCount = span.length := by
  obtain ⟨_, hmeta, _, _⟩ := chunkText_meta text cfg r h
  intro c hc
  obtain ⟨span, h1, h2, h3, h4, h5⟩ := hmeta c hc
  exact ⟨(hmeta c hc).words, (hmeta c hc).content_le_char, span, h1, h3⟩

/-- C2 witness. -/
theorem c2_witness :
    ValidConfig { chunkSize := 3, overlap := 0, strategy := "fixed" } ∧
    (trim ("ab cd".toList)).length ≠ 0 ∧
    ∀ c ∈ (getOk (chunkText ("ab cd".toList)
        { chunkSize := 3, overlap := 0, strategy := "fixed" })).chunks,
      c.wordCount = countWords c.content ∧
      c.content.length ≤ c.characterCount ∧
      ∃ span, c.content = trim span ∧ c.characterCount = span.length :=
  ⟨⟨by decide, by decide, by decide⟩, by decide,
    c2_metadata_amended ("ab cd".toList) { chunkSize := 3, overlap := 0, strategy := "fixed" }
      (getOk (chunkText ("ab cd".toList) { chunkSize := 3, overlap := 0, strategy := "fixed" }))
      ⟨by decide, by decide, by decide⟩ (by decide) rfl⟩

/-- C3: for every input text and valid configuration, `totalChunks` is the
length of the chunk list, chunks are in non-decreasing `startIndex` order,
no chunk has empty trimmed content, and `endIndex ≥ startIndex` always. -/
theorem c3_result_invariants (text : List Char) (cfg : ChunkingConfig)
    (r : ChunkingResult) (hv : ValidConfig cfg)
    (h : chunkText text cfg = .ok r) :
    r.totalChunks = r.chunks.length ∧
    List.Pairwise chunkLE r.chunks ∧
    ∀ c ∈ r.chunks, trim c.content ≠ [] ∧ c.startIndex ≤ c.endIndex := by
  obtain ⟨h1, hmeta, hpw, _⟩ := chunkText_meta text cfg r h
  refine ⟨h1, hpw, ?_⟩
  intro c hc
  refine ⟨?_, (hmeta c hc).start_le_end⟩
  rw [(hmeta c hc).trim_content]
  exact (hmeta c hc).content_ne

/-- C3 witness. -/
theorem c3_witness :
    ValidConfig { chunkSize := 4, overlap := 1, strategy := "fixed" } ∧
    ((getOk (chunkText ("Hello there".toList)
        { chunkSize := 4, overlap := 1, strategy := "fixed" })).totalChunks =
      (getOk (chunkText ("Hello there".toList)
        { chunkSize := 4, overlap := 1, strategy := "fixed" })).chunks.length ∧
     List.Pairwise chunkLE (getOk (chunkText ("Hello there".toList)
        { chunkSize := 4, overlap := 1, strategy := "fixed" })).chunks ∧
     ∀ c ∈ (getOk (chunkText ("Hello there".toList)
        { chunkSize := 4, overlap := 1, strategy := "fixed" })).chunks,
       trim c.content ≠ [] ∧ c.startIndex ≤ c.endIndex) :=
  ⟨⟨by decide, by decide, by decide⟩,
    c3_result_invariants ("Hello there".toList)
      { chunkSize := 4, overlap := 1, strategy := "fixed" }
      (getOk (chunkText ("Hello there".toList)
        { chunkSize := 4, overlap := 1, strategy := "fixed" }))
      ⟨by decide, by decide, by decide⟩ rfl⟩

/-- C4 counterexample: for `"ab cd"` with `chunkSize = 3`, `overlap = 0`,
trimming each window drops the interior space, so re-concatenating the
chunk contents gives `"abcd"`, not the (trim-invariant) original text. -/
theorem c4_counterexample :
    (chunkText ("ab cd".toList)
        { chunkSize := 3, overlap := 0, strategy := "fixed" }).toOption.map
      (fun r => ((r.chunks.map (fun c => c.content)).flatten ==
          trim ("ab cd".toList), r.totalChunks)) = some (false, 2) := by
  rfl

/-- C4 (amended): with zero overlap, if no window slice carries boundary
whitespace (each window equals its own trim), the concatenation of the
chunk contents reproduces the text (which then equals its trim) and the
chunk count is `⌈text.length / chunkSize⌉`. -/
theorem c4_concat_amended (text : List Char) (cfg : ChunkingConfig)
    (r : ChunkingResult) (hst : cfg.strategy = "fixed") (hov : cfg.overlap = 0)
    (hsz : 0 < cfg.chunkSize) (h0 : 0 < text.length)
    (hw : WindowsTrimmed cfg text) (h : chunkText text cfg = .ok r) :
    (r.chunks.map (fun c => c.content)).flatten = trim text ∧
    r.totalChunks = ceilDiv text.length cfg.chunkSize := by
  have htr := windowsTrimmed_trim text cfg hsz h0 hw
  obtain ⟨h1, _, h3⟩ := chunkText_ok text cfg r h
  rcases h3 with ⟨hz, _⟩ | hrs
  · rw [htr] at hz
    omega
  · unfold runStrategy at hrs
    rw [if_pos hst] at hrs
    simp only [Except.ok.injEq] at hrs
    obtain ⟨he1, he2⟩ := fixedSizeChunking_exact text cfg hsz hov h0 hw
    constructor
    · rw [← hrs, he1, htr]
    · rw [h1, ← hrs, he2]

/-- C4 witness. -/
theorem c4_witness :
    0 < ("abcdef".toList).length ∧
    WindowsTrimmed { chunkSize := 4, overlap := 0, strategy := "fixed" }
      ("abcdef".toList) ∧
    (((getOk (chunkText ("abcdef".toList)
        { chunkSize := 4, overlap := 0, strategy := "fixed" })).chunks.map
        (fun c => c.content)).flatten = trim ("abcdef".toList) ∧
     (getOk (chunkText ("abcdef".toList)
        { chunkSize := 4, overlap := 0, strategy := "fixed" })).totalChunks =
       ceilDiv ("abcdef".toList).length 4) :=
  ⟨by decide, by decide,
    c4_concat_amended ("abcdef".toList)
      { chunkSize := 4, overlap := 0, strategy := "fixed" }
      (getOk (chunkText ("abcdef".toList)
        { chunkSize := 4, overlap := 0, strategy := "fixed" }))
      rfl rfl (by decide) (by decide) (by decide) rfl⟩

/-- C5 counterexample: on the given text with `chunkSize=20, overlap=5` the
engine does not return the four claimed (untrimmed) contents. -/
theorem c5_counterexample :
    ¬((chunkText ("The quick brown fox jumps over the lazy dog. The dog was sleeping.".toList)
        { chunkSize := 20, overlap := 5, strategy := "fixed" }).toOption.map
      (fun r => r.chunks.map (fun c => c.content)) =
    some ["The quick brown fox ".toList, "fox jumps over the l".toList,
      "the lazy dog. The do".toList, "The dog was sleeping.".toList]) := by
  decide

/-- C5 (amended): on that text the engine returns five chunks, with trimmed
contents `"The quick brown fox"`, `"fox jumps over the"`,
`"the lazy dog. The d"`, `"The dog was sleeping"` and `"eping."` (the
window start advances by `chunkSize - overlap = 15`, contents are trimmed,
and a final short window at offset 60 yields a fifth chunk). -/
theorem c5_fixed_example :
    (chunkText ("The quick brown fox jumps over the lazy dog. The dog was sleeping.".toList)
        { chunkSize := 20, overlap := 5, strategy := "fixed" }).toOption.map
      (fun r => r.chunks.map (fun c => c.content)) =
    some ["The quick brown fox".toList, "fox jumps over the".toList,
      "the lazy dog. The d".toList, "The dog was sleeping".toList,
      "eping.".toList] := by
  rfl

/-- C6 counterexample: for `"abcdefg"` with `chunkSize=5, overlap=3` the
final chunk records `min 3 1 = 1` (its own untrimmed length), not
`min 3 3 = 3` (the preceding chunk's `characterCount`). -/
theorem c6_counterexample :
    (chunkText ("abcdefg".toList)
        { chunkSize := 5, overlap := 3, strategy := "fixed" }).toOption.map
      (fun r => (overlapClaimB 3 r.chunks,
        r.chunks.map (fun c => (c.overlapWith, c.characterCount)))) =
    some (false, [(some 0, 5), (some 3, 5), (some 3, 3), (some 1, 1)]) := by
  rfl

/-- C6 (amended): in the fixed strategy the first emitted chunk records
overlap 0 and every later chunk records `min config.overlap L` where `L` is
that chunk's *own* untrimmed span length (= its `characterCount`); all
other strategies leave the overlap field unset (`none`), not `0`. -/
theorem c6_overlap_amended (text : List Char) (cfg : ChunkingConfig)
    (r : ChunkingResult) (hv : ValidConfig cfg)
    (h : chunkText text cfg = .ok r) :
    (cfg.strategy = "fixed" → OverlapRec cfg.overlap r.chunks) ∧
    (cfg.strategy ≠ "fixed" → ∀ c ∈ r.chunks, c.overlapWith = none) := by
  refine ⟨fun hst => chunkText_fixed_overlap text cfg r hst h, ?_⟩
  exact (chunkText_meta text cfg r h).2.2.2

/-- C6 witness. -/
theorem c6_witness :
    ValidConfig { chunkSize := 5, overlap := 3, strategy := "fixed" } ∧
    (("fixed" = "fixed" → OverlapRec 3 (getOk (chunkText ("abcdefg".toList)
        { chunkSize := 5, overlap := 3, strategy := "fixed" })).chunks) ∧
     ("fixed" ≠ "fixed" → ∀ c ∈ (getOk (chunkText ("abcdefg".toList)
        { chunkSize := 5, overlap := 3, strategy := "fixed" })).chunks,
        c.overlapWith = none)) :=
  ⟨⟨by decide, by decide, by decide⟩,
    c6_overlap_amended ("abcdefg".toList)
      { chunkSize := 5, overlap := 3, strategy := "fixed" }
      (getOk (chunkText ("abcdefg".toList)
        { chunkSize := 5, overlap := 3, strategy := "fixed" }))
      ⟨by decide, by decide, by decide⟩ rfl⟩

/-- C7: in the recursive strategy every chunk fits in `chunkSize` except a
chunk whose content is a single whitespace-delimited word longer than
`chunkSize`. -/
theorem c7_recursive_bound (text : List Char) (cfg : ChunkingConfig)
    (r : ChunkingResult) (hv : ValidConfig cfg)
    (hst : cfg.strategy = "recursive") (hne : (trim text).length ≠ 0)
    (h : chunkText text cfg = .ok r) :
    ∀ c ∈ r.chunks, c.characterCount ≤ cfg.chunkSize ∨
      (countWords c.content = 1 ∧ cfg.chunkSize < c.content.length) :=
  chunkText_recursive_size text cfg r hst h

/-- C7 witness. -/
theorem c7_witness :
    ValidConfig { chunkSize := 12, overlap := 0, strategy := "recursive" } ∧
    (trim ("Hello world. Bye now.".toList)).length ≠ 0 ∧
    ∀ c ∈ (getOk (chunkText ("Hello world. Bye now.".toList)
        { chunkSize := 12, overlap := 0, strategy := "recursive" })).chunks,
      c.characterCount ≤ 12 ∨ (countWords c.content = 1 ∧ 12 < c.content.length) :=
  ⟨⟨by decide, by decide, by decide⟩, by decide,
    c7_recursive_bound ("Hello world. Bye now.".toList)
      { chunkSize := 12, overlap := 0, strategy := "recursive" }
      (getOk (chunkText ("Hello world. Bye now.".toList)
        { chunkSize := 12, overlap := 0, strategy := "recursive" }))
      ⟨by decide, by decide, by decide⟩ rfl (by decide) rfl⟩

/-- C8: the sentence strategy partitions the trimmed sentences of the text
into consecutive groups; each chunk's content is its group joined by single
spaces (so no boundary falls inside a sentence), and any group of two or
more sentences fits in `chunkSize` — hence an oversized sentence is always
emitted alone. -/
theorem c8_sentence_structure (text : List Char) (cfg : ChunkingConfig)
    (r : ChunkingResult) (hv : ValidConfig cfg)
    (hst : cfg.strategy = "sentence") (hne : (trim text).length ≠ 0)
    (h : chunkText text cfg = .ok r) :
    ∃ gs : List (List (List Char)),
      gs.flatten = sentencesOf text ∧
      r.chunks.map (fun c => c.content) = gs.map joinWords ∧
      ∀ g ∈ gs, g ≠ [] ∧ (2 ≤ g.length → (joinWords g).length ≤ cfg.chunkSize) := by
  obtain ⟨_, _, h3⟩ := chunkText_ok text cfg r h
  rcases h3 with ⟨hz, _⟩ | hrs
  · exact absurd hz hne
  · unfold runStrategy at hrs
    rw [if_neg (by rw [hst]; decide), if_pos hst] at hrs
    simp only [Except.ok.injEq] at hrs
    obtain ⟨gs, hgsj, hgsm, hgsne, hgssz⟩ := sbcLoop_groups cfg
      ((sentSplit text).filter (fun s => (trim s).length > 0)) [] 0 0 []
      rfl (fun _ => rfl) (fun _ => rfl) accInv_nil (by intro h2; simp at h2)
    refine ⟨gs, ?_, ?_, ?_⟩
    · rw [hgsj]
      rfl
    · rw [← hrs]
      exact hgsm
    · exact fun g hg => ⟨hgsne g hg, hgssz g hg⟩

/-- C8 witness. -/
theorem c8_witness :
    ValidConfig { chunkSize := 22, overlap := 0, strategy := "sentence" } ∧
    (trim ("One one. Two two. Three three.".toList)).length ≠ 0 ∧
    ∃ gs : List (List (List Char)),
      gs.flatten = sentencesOf ("One one. Two two. Three three.".toList) ∧
      (getOk (chunkText ("One one. Two two. Three three.".toList)
        { chunkSize := 22, overlap := 0, strategy := "sentence" })).chunks.map
        (fun c => c.content) = gs.map joinWords ∧
      ∀ g ∈ gs, g ≠ [] ∧ (2 ≤ g.length → (joinWords g).length ≤ 22) :=
  ⟨⟨by decide, by decide, by decide⟩, by decide,
    c8_sentence_structure ("One one. Two two. Three three.".toList)
      { chunkSize := 22, overlap := 0, strategy := "sentence" }
      (getOk (chunkText ("One one. Two two. Three three.".toList)
        { chunkSize := 22, overlap := 0, strategy := "sentence" }))
      ⟨by decide, by decide, by decide⟩ rfl (by decide) rfl⟩

/-- C10: for every strategy and every chunk, the recorded span width is
exactly the recorded character count: `endIndex = startIndex +
characterCount`. -/
theorem c10_span_width (text : List Char) (cfg : ChunkingConfig)
    (r : ChunkingResult) (hv : ValidConfig cfg)
    (h : chunkText text cfg = .ok r) :
    ∀ c ∈ r.chunks, c.endIndex = c.startIndex + c.characterCount := by
  obtain ⟨_, hmeta, _, _⟩ := chunkText_meta text cfg r h
  exact fun c hc => (hmeta c hc).end_eq

/-- C10 witness. -/
theorem c10_witness :
    ValidConfig { chunkSize := 6, overlap := 2, strategy := "fixed" } ∧
    ∀ c ∈ (getOk (chunkText ("abc def ghi".toList)
        { chunkSize := 6, overlap := 2, strategy := "fixed" })).chunks,
      c.endIndex = c.startIndex + c.characterCount :=
  ⟨⟨by decide, by decide, by decide⟩,
    c10_span_width ("abc def ghi".toList)
      { chunkSize := 6, overlap := 2, strategy := "fixed" }
      (getOk (chunkText ("abc def ghi".toList)
        { chunkSize := 6, overlap := 2, strategy := "fixed" }))
      ⟨by decide, by decide, by decide⟩ rfl⟩

end Chunker
